import Mathlib

/-!
Verification of the annotation-resolution and loss/metric accounting logic of
the unifiedparsing repository.

Strings of the Python source are modelled as lists of characters
(`Str := List Char`); Python dicts are modelled as association lists whose
`List.lookup` returns the most recent binding; numpy/torch tensors are
modelled as (nested) lists of integers or rationals; float arithmetic is
modelled by rational arithmetic; fallible operations (KeyError, NameError,
ValueError, sys.exit) return `Option`.
-/

abbrev Str := List Char

/-- Single-quote character (the quote used in part2ind.m). -/
def sqc : Char := '\x27'

/-- Opening brace character. -/
def obr : Char := '\x7b'

/-- Closing brace character. -/
def cbr : Char := '\x7d'

namespace Pascalseg

/-! ### Generic helpers: stable insertion sort (model of Python `sorted`). -/

/-- Insert an element into a sorted list (stable: goes before the first
element that is not `le`-below it). -/
def insertLe (le : α → α → Bool) (x : α) : List α → List α
  | [] => [x]
  | y :: t => if le x y then x :: y :: t else y :: insertLe le x t

/-- Stable insertion sort; models Python `sorted` (any stable ascending sort
produces the same list on a total order). -/
def insertionSort (le : α → α → Bool) : List α → List α
  | [] => []
  | x :: t => insertLe le x (insertionSort le t)

/-! ### Character-list comparison (model of Python string comparison, which is
lexicographic on code points). -/

def charListLeb : Str → Str → Bool
  | [], _ => true
  | _ :: _, [] => false
  | a :: s, b :: t => if a = b then charListLeb s t else decide (a < b)

/-- Comparison of `(int, str)` tuples, as Python compares dict keys in
`sorted(list(raw_names.keys()))`: lexicographic on components. -/
def keyLeb (a b : ℕ × Str) : Bool :=
  decide (a.1 < b.1) || (decide (a.1 = b.1) && charListLeb a.2 b.2)

/-! ### `normalize_readable` (pascalseg.py lines 163-187). -/

/-- Python whitespace characters as used by `str.split()` with no argument. -/
def isPyWhite (c : Char) : Bool :=
  c = ' ' || c = '\t' || c = '\n' || c = '\r' || c = '\x0b' || c = '\x0c'

/-- Recursion core of `pySplit`, structural on a fuel argument so that the
definition evaluates inside the kernel; the fuel is always at least the length
of the remaining string. -/
def pySplitGo : ℕ → Str → List Str
  | 0, _ => []
  | _ + 1, [] => []
  | fuel + 1, c :: t =>
    if isPyWhite c then pySplitGo fuel t
    else (c :: t.takeWhile (fun d => !(isPyWhite d))) ::
      pySplitGo fuel (t.dropWhile (fun d => !(isPyWhite d)))

/-- Model of Python `name.split()`: split on runs of whitespace, discarding
empty fields. -/
def pySplit (s : Str) : List Str := pySplitGo s.length s

/-- Model of Python `' '.join(ws)`: concatenate the words with single spaces
in between. -/
def joinWords : List Str → Str
  | [] => []
  | [w] => w
  | w :: ws => w ++ ' ' :: joinWords ws

/-- Recursion core of `replaceAll`, structural on a fuel argument; the fuel is
always at least the length of the remaining string. -/
def replaceAllGo (p r : Str) : ℕ → Str → Str
  | 0, s => s
  | _ + 1, [] => []
  | fuel + 1, c :: t =>
    if p.isPrefixOf (c :: t) ∧ p ≠ [] then
      r ++ replaceAllGo p r fuel ((c :: t).drop p.length)
    else c :: replaceAllGo p r fuel t

/-- Model of Python `s.replace(p, r)` for a nonempty pattern `p`: replace
every non-overlapping occurrence of `p`, scanning left to right.  (Python
treats an empty pattern specially; the pattern used in the source,
`'aeroplane'`, is nonempty, and this model keeps `s` unchanged then.) -/
def replaceAll (p r : Str) (s : Str) : Str := replaceAllGo p r s.length s

/-- The fixed table of long names for short part names
(pascalseg.py lines 165-179). -/
def decoded_names : List (Str × Str) :=
  [("lfho".toList, "left front hoof".toList),
   ("rfho".toList, "right front hoof".toList),
   ("lbho".toList, "left back hoof".toList),
   ("rbho".toList, "right back hoof".toList),
   ("fwheel".toList, "front wheel".toList),
   ("bwheel".toList, "back wheel".toList),
   ("frontside".toList, "front side".toList),
   ("leftside".toList, "left side".toList),
   ("rightside".toList, "right side".toList),
   ("backside".toList, "back side".toList),
   ("roofside".toList, "roof side".toList),
   ("leftmirror".toList, "left mirror".toList),
   ("rightmirror".toList, "right mirror".toList)]

/-- `normalize_readable(name, collapse_adjectives)` (pascalseg.py 163-187):
expand the fixed short names, replace 'aeroplane' by 'airplane', and, when
`collapse_adjectives` is given, drop every whitespace-separated word that is a
member of it (rejoining the remaining words with single spaces). -/
def normalize_readable (name : Str) (collapse_adjectives : Option (List Str)) : Str :=
  let name1 :=
    match decoded_names.lookup name with
    | some long => long
    | none => name
  let name2 := replaceAll "aeroplane".toList "airplane".toList name1
  match collapse_adjectives with
  | none => name2
  | some adjs =>
    joinWords ((pySplit name2).filter (fun n => !(adjs.contains n)))

/-- `normalize_all_readable(raw_keys, collapse_adjectives)`
(pascalseg.py 157-160). -/
def normalize_all_readable (raw_keys : List ((ℕ × Str) × (Str × Str)))
    (collapse_adjectives : Option (List Str)) : List ((ℕ × Str) × (Str × Str)) :=
  raw_keys.map (fun kv =>
    (kv.1, (normalize_readable kv.2.1 collapse_adjectives,
            normalize_readable kv.2.2 collapse_adjectives)))

/-! ### `normalize_part_key` (pascalseg.py lines 124-154). -/

/-- The mutable state of the loop in `normalize_part_key`: the object-name
array, the growing part-name list, and the two dicts (modelled as association
lists whose head is the most recent binding). -/
structure NpkState where
  ocn : List Str
  pcn : List Str
  alias_key : List ((Str × Str) × ℕ)
  part_key : List ((ℕ × Str) × ℕ)

/-- One iteration of the loop body of `normalize_part_key` for key `k`.
A key absent from `raw` would raise `KeyError` in Python; the loop only ever
processes keys of `raw`, so that branch is unreachable and leaves the state
unchanged. -/
def npkStep (raw : List ((ℕ × Str) × (Str × Str))) (st : NpkState) (k : ℕ × Str) :
    NpkState :=
  match raw.lookup k with
  | none => st
  | some n =>
    match st.alias_key.lookup n with
    | some code =>
      { st with ocn := st.ocn.set k.1 n.1, part_key := (k, code) :: st.part_key }
    | none =>
      if n.2 ∈ st.pcn then
        { ocn := st.ocn.set k.1 n.1, pcn := st.pcn,
          alias_key := (n, st.pcn.indexOf n.2) :: st.alias_key,
          part_key := (k, st.pcn.indexOf n.2) :: st.part_key }
      else
        { ocn := st.ocn.set k.1 n.1, pcn := st.pcn ++ [n.2],
          alias_key := (n, st.pcn.length) :: st.alias_key,
          part_key := (k, st.pcn.length) :: st.part_key }

/-- `normalize_part_key(raw_names)` (pascalseg.py 124-154): enforce the coding
policy aliasing duplicate part names down to the same part code.  Returns
`(object_class_names, part_class_names, part_key)`.  Python raises
`ValueError` (`max` of an empty sequence) on an empty input dict, modelled by
`none`. -/
def normalize_part_key (raw : List ((ℕ × Str) × (Str × Str))) :
    Option (List Str × List Str × List ((ℕ × Str) × ℕ)) :=
  match raw with
  | [] => none
  | _ :: _ =>
    let object_class_count := (raw.map (fun kv => kv.1.1)).foldr max 0 + 1
    let sortedKeys := insertionSort keyLeb (raw.map Prod.fst)
    let init : NpkState :=
      ⟨List.replicate object_class_count "-".toList, ["-".toList], [], []⟩
    let fin := sortedKeys.foldl (npkStep raw) init
    some (fin.ocn, fin.pcn, fin.part_key)

/-- The final loop state computed by `normalize_part_key` (the body of the
nonempty case, factored out for reasoning). -/
def npkFin (raw : List ((ℕ × Str) × (Str × Str))) : NpkState :=
  (insertionSort keyLeb (raw.map Prod.fst)).foldl (npkStep raw)
    ⟨List.replicate ((raw.map (fun kv => kv.1.1)).foldr max 0 + 1) "-".toList,
     ["-".toList], [], []⟩

/-- The invariant maintained by the loop of `normalize_part_key`:
part names are pairwise distinct, and every code recorded in `alias_key` or
`part_key` is a valid index of `pcn` naming the right part. -/
def NpkInv (raw : List ((ℕ × Str) × (Str × Str))) (st : NpkState) : Prop :=
  st.pcn.Nodup ∧
  (∀ n code, st.alias_key.lookup n = some code →
    code < st.pcn.length ∧ st.pcn.getD code [] = n.2) ∧
  (∀ k code, st.part_key.lookup k = some code →
    ∃ n, raw.lookup k = some n ∧ code < st.pcn.length ∧ st.pcn.getD code [] = n.2)

/-- A three-key example map: two engine numbers of the same object and the
same part name under another object. -/
def npkDemoRaw : List ((ℕ × Str) × (Str × Str)) :=
  [((1, "engine_1".toList), ("airplane".toList, "engine".toList)),
   ((1, "engine_2".toList), ("airplane".toList, "engine".toList)),
   ((2, "engine_1".toList), ("car".toList, "engine".toList))]

def npkDemoOcn : List Str := ["-".toList, "airplane".toList, "car".toList]

def npkDemoPcn : List Str := ["-".toList, "engine".toList]

def npkDemoPk : List ((ℕ × Str) × ℕ) :=
  [((2, "engine_1".toList), 1), ((1, "engine_2".toList), 1),
   ((1, "engine_1".toList), 1)]

/-! ### `load_part2ind` (pascalseg.py lines 204-313).

The function pattern-matches each line of part2ind.m against a fixed set of
anchored regular expressions.  Each regex is embedded as a total recognizer
over character lists.  Lines are modelled without their trailing newline.
Failures that make the Python program abort (an unrecognized line calls
`sys.exit(1)`; a loop-state variable used before assignment raises
`NameError`; `int(None)` raises `TypeError`) are modelled by `none`. -/

/-- Model of the regex class `\w` (ASCII word character). -/
def isWordc (c : Char) : Bool := c.isAlphanum || c = '_'

/-- Model of the regex class `\s` (same whitespace set as `isPyWhite`). -/
def isWSc (c : Char) : Bool := isPyWhite c

/-- Match a literal at the head of the input, returning the rest. -/
def stripLit : Str → Str → Option Str
  | [], s => some s
  | _ :: _, [] => none
  | l :: ls, c :: cs => if c = l then stripLit ls cs else none

/-- Value of a nonempty digit string. -/
def natOfDigits (ds : Str) : ℕ :=
  ds.foldl (fun acc c => acc * 10 + (c.toNat - '0'.toNat)) 0

/-- Model of regex `\d+` at the head of the input (greedy). -/
def parseDigits (s : Str) : Option (ℕ × Str) :=
  let ds := s.takeWhile (fun c => c.isDigit)
  if ds.isEmpty then none
  else some (natOfDigits ds, s.dropWhile (fun c => c.isDigit))

/-- Skip `\s*`. -/
def skipWS (s : Str) : Str := s.dropWhile isWSc

/-- Drop trailing spaces (backtracking of `[\w ]*` before a final `\w`). -/
def dropTrailingSpaces (s : Str) : Str :=
  (s.reverse.dropWhile (fun c => c = ' ')).reverse

/-- Decimal numeral of a number, as Python `'%d' % n` produces it
(structural on fuel so it evaluates in the kernel). -/
def natToStrGo : ℕ → ℕ → Str
  | 0, _ => []
  | fuel + 1, n =>
    if n < 10 then [Char.ofNat (n + 48)]
    else natToStrGo fuel (n / 10) ++ [Char.ofNat (n % 10 + 48)]

def natToStr (n : ℕ) : Str := natToStrGo (n + 1) n

/-- Regex 1, `^% \[([^\]]*)\]` (line 217): an object-name header such as
`% [aeroplane]`; returns the captured name. -/
def matchObjHeader (line : Str) : Option Str :=
  match stripLit "% [".toList line with
  | none => none
  | some rest =>
    let name := rest.takeWhile (fun c => c != ']')
    match rest.dropWhile (fun c => c != ']') with
    | ']' :: _ => some name
    | _ => none

/-- The optional trailing group `(?:\s*%\s*(\w[\w ]*\w))?` of regexes 2 and 4:
a comment holding a readable name of at least two characters that starts and
ends with a word character.  When the group fails the optional as a whole is
skipped, so `none` simply means "no captured name". -/
def parseOptComment (s : Str) : Option Str :=
  match skipWS s with
  | '%' :: rest =>
    match skipWS rest with
    | c :: cs =>
      if isWordc c then
        let run := (c :: cs).takeWhile (fun d => isWordc d || d = ' ')
        let trimmed := dropTrailingSpaces run
        if 2 ≤ trimmed.length then some trimmed else none
      else none
    | [] => none
  | _ => none

/-- Regex 2 (lines 222-228): `^pimap\{(\d+)\}\('([^']*)'\)\s*=\s*(\d+);` with
the optional readable-name comment.  Returns
(object index, part short name, part number, optional long name). -/
def matchPartLine (line : Str) : Option (ℕ × Str × ℕ × Option Str) := do
  let r1 ← stripLit ("pimap".toList ++ [obr]) line
  let (objIdx, r2) ← parseDigits r1
  let r3 ← stripLit [cbr, '(', sqc] r2
  let pname := r3.takeWhile (fun c => c != sqc)
  let r4 := r3.dropWhile (fun c => c != sqc)
  let r5 ← stripLit [sqc, ')'] r4
  let r6 ← stripLit ['='] (skipWS r5)
  let (partIdx, r7) ← parseDigits (skipWS r6)
  let r8 ← stripLit [';'] r7
  pure (objIdx, pname, partIdx, parseOptComment r8)

/-- Regex 3, `for ii = 1:(\d+)*` (line 239): the starry group may be absent,
in which case Python would crash on `int(None)`; that case is reported as
`some none`. -/
def matchForLine (line : Str) : Option (Option ℕ) :=
  match stripLit "for ii = 1:".toList line with
  | none => none
  | some rest =>
    match parseDigits rest with
    | some (k, _) => some (some k)
    | none => some none

/-- Regex 4 (lines 245-254): the `sprintf` form
`^\s*pimap\{(\d+)\}\(sprintf\('([^']*)_%d',\s*ii\)\)\s*=\s*(\d+)\s*\+\s*ii\s*;`
with the optional comment.  The greedy group `([^']*)` backtracks so that the
quoted text must end in `_%d`; the capture is the text before that suffix. -/
def matchSprintfLine (line : Str) : Option (ℕ × Str × ℕ × Option Str) := do
  let r1 ← stripLit ("pimap".toList ++ [obr]) (skipWS line)
  let (objIdx, r2) ← parseDigits r1
  let r3 ← stripLit ([cbr] ++ "(sprintf(".toList ++ [sqc]) r2
  let run := r3.takeWhile (fun c => c != sqc)
  let r4 := r3.dropWhile (fun c => c != sqc)
  if "_%d".toList.isSuffixOf run then
    let pname := run.take (run.length - 3)
    let r5 ← stripLit [sqc, ','] r4
    let r6 ← stripLit "ii))".toList (skipWS r5)
    let r7 ← stripLit ['='] (skipWS r6)
    let (partNum, r8) ← parseDigits (skipWS r7)
    let r9 ← stripLit ['+'] (skipWS r8)
    let r10 ← stripLit "ii".toList (skipWS r9)
    let r11 ← stripLit [';'] (skipWS r10)
    pure (objIdx, pname, partNum, parseOptComment r11)
  else none

/-- Regex 5, `% only has si` (line 270): the (misspelled) silhouette marker.
This branch of the Python loop does not `continue`, so control falls through
to the remaining patterns. -/
def matchSilLine (line : Str) : Bool := "% only has si".toList.isPrefixOf line

/-- Regex 6 (lines 278-282): `^(key|value)Set\s*=\s*\1s\(pimap{(\d+)}\);`,
returning the object number whose entries are to be copied. -/
def matchCopyKeys (line : Str) : Option ℕ :=
  let tryKind (kind : Str) : Option ℕ := do
    let r1 ← stripLit (kind ++ "Set".toList) line
    let r2 ← stripLit ['='] (skipWS r1)
    let r3 ← stripLit (kind ++ "s(pimap".toList ++ [obr]) (skipWS r2)
    let (idx, r4) ← parseDigits r3
    let _ ← stripLit ([cbr] ++ ");".toList) r4
    pure idx
  match tryKind "key".toList with
  | some i => some i
  | none => tryKind "value".toList

/-- Regex 7 (lines 288-292):
`^pimap{(\d+)}\s*=\s*containers.Map\(keySet,\s*valueSet\);`; the unescaped
`.` matches any character. -/
def matchMapCopy (line : Str) : Option ℕ := do
  let r1 ← stripLit ("pimap".toList ++ [obr]) line
  let (idx, r2) ← parseDigits r1
  let r3 ← stripLit [cbr] r2
  let r4 ← stripLit ['='] (skipWS r3)
  let r5 ← stripLit "containers".toList (skipWS r4)
  match r5 with
  | _ :: r6 => do
    let r7 ← stripLit "Map(keySet,".toList r6
    let _ ← stripLit "valueSet);".toList (skipWS r7)
    pure idx
  | [] => none

/-- Regex 8 (lines 300-307): lines that are recognized and ignored
(`function`, `pimap =`, indented `pimap{ii}`, `end`, comments, `remove`, and
the empty line via `$`). -/
def matchIgnoreLine (line : Str) : Bool :=
  "function".toList.isPrefixOf line ||
  "pimap =".toList.isPrefixOf line ||
  ("pimap".toList ++ [obr] ++ "ii".toList ++ [cbr]).isPrefixOf (skipWS line) ||
  "end".toList.isPrefixOf line ||
  (match skipWS line with | '%' :: _ => true | _ => false) ||
  "remove".toList.isPrefixOf line ||
  line.isEmpty

/-- Model of the Python substring test `p in s`. -/
def containsSub (p s : Str) : Bool := s.tails.any (fun t => p.isPrefixOf t)

/-- Insertion into an `OrderedDict` modelled as an association list: an
existing key is updated in place, a new key is appended at the end. -/
def odInsert (k : ℕ × Str) (v : Str × Str)
    (m : List ((ℕ × Str) × (Str × Str))) : List ((ℕ × Str) × (Str × Str)) :=
  if m.any (fun kv => kv.1 == k) then
    m.map (fun kv => if kv.1 == k then (k, v) else kv)
  else m ++ [(k, v)]

/-- The loop-carried state of `load_part2ind`: the four Python local
variables (unassigned until their first binding) and the ordered result
map. -/
structure P2IState where
  object_name : Option Str
  iteration_count : Option ℕ
  object_to_copy : Option ℕ
  object_index : Option ℕ
  result : List ((ℕ × Str) × (Str × Str))

/-- One iteration of the line loop of `load_part2ind` (lines 215-312),
trying the patterns in source order; the silhouette branch falls through to
the later patterns as in the source. -/
def p2iLine (st : P2IState) (line : Str) : Option P2IState :=
  match matchObjHeader line with
  | some name => some { st with object_name := some name }
  | none =>
  match matchPartLine line with
  | some (objIdx, pname, _, readable) =>
    match st.object_name with
    | none => none
    | some oname =>
      some { st with
        object_index := some objIdx
        result := odInsert (objIdx, pname) (oname, readable.getD pname) st.result }
  | none =>
  match matchForLine line with
  | some (some k) => some { st with iteration_count := some k }
  | some none => none
  | none =>
  match matchSprintfLine line with
  | some (objIdx, pname, _, readable) =>
    match st.object_name, st.iteration_count with
    | some oname, some itc =>
      let rname :=
        match readable with
        | some r => if containsSub "multiple".toList r then pname else r
        | none => pname
      some { st with
        object_index := some objIdx
        result := (List.range itc).foldl (fun m i =>
          odInsert (objIdx, pname ++ '_' :: natToStr (i + 1)) (oname, rname) m)
          st.result }
    | _, _ => none
  | none =>
  match (if matchSilLine line then
      match st.object_index, st.object_name with
      | some oi, some oname =>
        some { st with
          object_index := some (oi + 1)
          result := odInsert (oi + 1, "silhouette".toList)
            (oname, "silhouette".toList) st.result }
      | _, _ => none
    else some st) with
  | none => none
  | some st1 =>
  match matchCopyKeys line with
  | some i => some { st1 with object_to_copy := some i }
  | none =>
  match matchMapCopy line with
  | some newIdx =>
    match st1.object_to_copy, st1.object_name with
    | some src, some oname =>
      some { st1 with
        object_index := some newIdx
        result := st1.result.foldl (fun m kv =>
          if kv.1.1 == src then odInsert (newIdx, kv.1.2) (oname, kv.2.2) m
          else m) st1.result }
    | _, _ => none
  | none =>
    if matchIgnoreLine line then some st1 else none

/-- `load_part2ind` (pascalseg.py 204-313) over the lines of the file. -/
def load_part2ind (lines : List Str) :
    Option (List ((ℕ × Str) × (Str × Str))) :=
  (lines.foldlM p2iLine ⟨none, none, none, none, []⟩).map P2IState.result

/-- A demonstration file exercising every pattern of `load_part2ind`. -/
def p2iDemo : List Str :=
  ["% [aeroplane]".toList,
   "pimap".toList ++ [obr, '1', cbr, '(', sqc] ++ "body".toList ++
     [sqc, ')'] ++ "        = 1;".toList,
   "pimap".toList ++ [obr, '1', cbr, '(', sqc] ++ "lwing".toList ++
     [sqc, ')'] ++ "       = 3;                % left wing".toList,
   "for ii = 1:2".toList,
   "    pimap".toList ++ [obr, '1', cbr] ++ "(sprintf(".toList ++ [sqc] ++
     "engine_%d".toList ++ [sqc] ++ ", ii)) = 10+ii; % multiple engines".toList,
   "end".toList,
   "% [bird]".toList,
   "pimap".toList ++ [obr, '2', cbr, '(', sqc] ++ "beak".toList ++
     [sqc, ')'] ++ "   = 1;".toList,
   "% [boat]".toList,
   "% only has sihouette mask".toList,
   "% [dog]".toList,
   "keySet = keys(pimap".toList ++ [obr, '2', cbr] ++ ");".toList,
   "valueSet = values(pimap".toList ++ [obr, '2', cbr] ++ ");".toList,
   "pimap".toList ++ [obr, '4', cbr] ++ " = containers.Map(keySet, valueSet);".toList]

/-- The map that `load_part2ind` produces on `p2iDemo`. -/
def p2iDemoExpected : List ((ℕ × Str) × (Str × Str)) :=
  [((1, "body".toList), ("aeroplane".toList, "body".toList)),
   ((1, "lwing".toList), ("aeroplane".toList, "left wing".toList)),
   ((1, "engine_1".toList), ("aeroplane".toList, "engine".toList)),
   ((1, "engine_2".toList), ("aeroplane".toList, "engine".toList)),
   ((2, "beak".toList), ("bird".toList, "beak".toList)),
   ((3, "silhouette".toList), ("boat".toList, "silhouette".toList)),
   ((4, "beak".toList), ("dog".toList, "beak".toList))]

/-! ### `load_parts_segmentation` (pascalseg.py lines 96-121).

The annotation of one mat file is a list of object instances, each with a
class index, a boolean mask, and a list of named part masks.  The two int16
numpy arrays are modelled as rectangular lists of integers; the int16 cast on
assignment is modelled by `toInt16`.  A `KeyError` on `part_key` lookup is
modelled by `none`.  Numpy boolean-mask assignment requires equal shapes
(otherwise Python raises); `applyMask` is stated on equal-shaped grids. -/

/-- A named part mask inside an instance of an Annotations_Part mat file. -/
structure AnnPart where
  part_name : Str
  mask : List (List Bool)

/-- One object instance of an Annotations_Part mat file. -/
structure AnnInstance where
  class_ind : ℕ
  mask : List (List Bool)
  parts : List AnnPart

/-- Wrap of a natural number into a numpy int16 value. -/
def toInt16 (n : ℕ) : ℤ := ((n : ℤ) + 2 ^ 15) % 2 ^ 16 - 2 ^ 15

/-- `seg[mask] = v` on same-shaped arrays. -/
def applyMask (seg : List (List ℤ)) (mask : List (List Bool)) (v : ℤ) :
    List (List ℤ) :=
  List.zipWith (fun segRow mRow =>
    List.zipWith (fun x b => if b then v else x) segRow mRow) seg mask

/-- `numpy.zeros(mask_shape, dtype=numpy.int16)`. -/
def zerosGrid (hh ww : ℕ) : List (List ℤ) :=
  List.replicate hh (List.replicate ww 0)

/-- The result of `load_parts_segmentation`: either the scalar pair `(0, 0)`
(no instances) or the two merged segmentation arrays. -/
inductive PartsSegResult where
  | scalars
  | segs (object_seg part_seg : List (List ℤ))
deriving DecidableEq

/-- `load_parts_segmentation(filename, part_key)` (pascalseg.py 96-121) on
the decoded annotation.  Instances are processed in file order; the object
mask writes the class index into the object layer, then each part mask writes
its aliased part code (found in `part_key` under the owning instance's class
index and the part's name) into the part layer.  Later writes overwrite
earlier ones. -/
def load_parts_segmentation (instances : List AnnInstance)
    (part_key : List ((ℕ × Str) × ℕ)) : Option PartsSegResult :=
  match instances with
  | [] => some .scalars
  | inst0 :: _ =>
    let hh := inst0.mask.length
    let ww := (inst0.mask.headD []).length
    ((instances.foldlM (fun (acc : List (List ℤ) × List (List ℤ))
          (inst : AnnInstance) =>
        let oseg := applyMask acc.1 inst.mask (toInt16 inst.class_ind)
        (inst.parts.foldlM (fun (pseg : List (List ℤ)) (part : AnnPart) =>
          match part_key.lookup (inst.class_ind, part.part_name) with
          | none => none
          | some code => some (applyMask pseg part.mask (toInt16 code)))
          acc.2).map (fun pseg => (oseg, pseg)))
        (zerosGrid hh ww, zerosGrid hh ww)).map
      (fun (op : List (List ℤ) × List (List ℤ)) =>
        PartsSegResult.segs op.1 op.2))

/-- Cell read with out-of-range defaulting (used only in range). -/
def cellAt (g : List (List ℤ)) (y x : ℕ) : ℤ := (g.getD y []).getD x 0

/-- Whether mask `m` covers pixel `(y, x)`. -/
def coversAt (m : List (List Bool)) (y x : ℕ) : Bool := (m.getD y []).getD x false

/-- A boolean grid of shape `(hh, ww)`. -/
def GridShapeB (m : List (List Bool)) (hh ww : ℕ) : Prop :=
  m.length = hh ∧ ∀ row ∈ m, row.length = ww

/-- An integer grid of shape `(hh, ww)`. -/
def GridShapeZ (g : List (List ℤ)) (hh ww : ℕ) : Prop :=
  g.length = hh ∧ ∀ row ∈ g, row.length = ww

instance (m : List (List Bool)) (hh ww : ℕ) : Decidable (GridShapeB m hh ww) := by
  unfold GridShapeB
  infer_instance

instance (g : List (List ℤ)) (hh ww : ℕ) : Decidable (GridShapeZ g hh ww) := by
  unfold GridShapeZ
  infer_instance

/-- The object-layer writes of `load_parts_segmentation`, in program order. -/
def objOps (instances : List AnnInstance) : List (List (List Bool) × ℕ) :=
  instances.map (fun i => (i.mask, i.class_ind))

/-- The part-layer writes of `load_parts_segmentation`, in program order:
every part mask of every instance with its code from `part_key`. -/
def partOps (instances : List AnnInstance) (pk : List ((ℕ × Str) × ℕ)) :
    List (List (List Bool) × ℕ) :=
  instances.flatMap (fun i => i.parts.map (fun p =>
    (p.mask, (pk.lookup (i.class_ind, p.part_name)).getD 0)))

/-- Height of the first instance's mask (the allocation shape). -/
def firstMaskH : List AnnInstance → ℕ
  | [] => 0
  | i :: _ => i.mask.length

/-- Width of the first instance's mask (the allocation shape). -/
def firstMaskW : List AnnInstance → ℕ
  | [] => 0
  | i :: _ => (i.mask.headD []).length

/-- The value of the last write covering pixel `(y, x)`, if any. -/
def lastWrite (ops : List (List (List Bool) × ℕ)) (y x : ℕ) : Option ℕ :=
  (ops.reverse.find? (fun op => coversAt op.1 y x)).map Prod.snd

/-- The write-fold used by both layers of `load_parts_segmentation`. -/
def foldWrites (ops : List (List (List Bool) × ℕ)) (g0 : List (List ℤ)) :
    List (List ℤ) :=
  ops.foldl (fun g op => applyMask g op.1 (toInt16 op.2)) g0

/-- A one-instance demonstration annotation. -/
def lpsDemoInstances : List AnnInstance :=
  [⟨1, [[true, false]], [⟨"engine_1".toList, [[false, true]]⟩]⟩]

def lpsDemoPk : List ((ℕ × Str) × ℕ) := [((1, "engine_1".toList), 5)]

/-! ### `PascalSegmentation.metadata` and `resolve_segmentation`
(pascalseg.py lines 76-93, claim C7). -/

/-- The fields that `PascalSegmentation.__init__` assigns (values that the
constructor derives from the file system and the metadata files are data of
the structure, since their computation is file I/O). -/
structure PascalSegmentation where
  directory : Str
  version : Str
  partdir : Str
  contextdir : Str
  collapse_adjectives : Option (List Str)
  codes : List ((ℕ × Str) × (Str × Str))
  part_object_names : List Str
  part_names : List Str
  part_key : List ((ℕ × Str) × ℕ)
  object_names : List Str
  segs : List Str

/-- The 5-tuple `metadata(i)` returns (pascalseg.py 76-78). -/
abbrev PascalMeta := Str × Str × Str × List ((ℕ × Str) × ℕ) × Str

/-- `metadata(self, i)` (pascalseg.py 76-78); `segs[i]` raises `IndexError`
out of range, so a bound is required. -/
def PascalSegmentation.metadata (p : PascalSegmentation) (i : ℕ)
    (h : i < p.segs.length) : PascalMeta :=
  (p.directory, p.partdir, p.contextdir, p.part_key, p.segs.get ⟨i, h⟩)

/-- `wants(what, option)` (pascalseg.py 316-319). -/
def wants (what : Str) (opt : Option (List Str)) : Bool :=
  match opt with
  | none => true
  | some cats => cats.contains what

/-- Model of `os.path.join` on relative components: empty components are
skipped. -/
def joinPath (ps : List Str) : Str :=
  List.intercalate ['/'] (ps.filter (fun s => !s.isEmpty))

/-- A numpy value that is either a scalar or a 2-d array, as stored under
`result['part']` (the scalar `0` when the annotation had no instances). -/
inductive ScalarOrGrid where
  | scalar (n : ℤ)
  | grid (g : List (List ℤ))
deriving DecidableEq

/-- `resolve_segmentation(m, categories)` (pascalseg.py 80-93).  File I/O
(`loadmat`) is modelled by two read maps from path to decoded content; a
missing file or a part-code `KeyError` is `none`.  `result['part']` keeps
only the part layer (the object layer of the parts annotation is discarded
as in the source).  The metadata tuple is threaded through and returned
unchanged, so that a mutation of any of its components by the body would be
visible in the result. -/
def resolve_segmentation
    (fsParts : Str → Option (List AnnInstance))
    (fsContext : Str → Option (List (List ℤ)))
    (m : PascalMeta) (categories : Option (List Str)) :
    Option ((Option ScalarOrGrid × Option (List (List ℤ))) ×
      (ℕ × ℕ) × PascalMeta) :=
  match (if wants "part".toList categories then
      match fsParts (joinPath [m.1, m.2.1, "Annotations_Part".toList, m.2.2.2.2]) with
      | none => none
      | some instances =>
        match load_parts_segmentation instances m.2.2.2.1 with
        | none => none
        | some PartsSegResult.scalars => some (some (ScalarOrGrid.scalar 0))
        | some (PartsSegResult.segs _ parts) => some (some (ScalarOrGrid.grid parts))
    else some none) with
  | none => none
  | some partRes =>
    match (if wants "object".toList categories then
        match fsContext (joinPath [m.1, m.2.2.1, "trainval".toList, m.2.2.2.2]) with
        | none => none
        | some lm => some (some lm)
      else some none) with
    | none => none
    | some objRes =>
      let shape :=
        match partRes with
        | some (ScalarOrGrid.grid pseg) => (pseg.length, (pseg.headD []).length)
        | _ =>
          match objRes with
          | some lm => (lm.length, (lm.headD []).length)
          | none => (1, 1)
      some ((partRes, objRes), shape, m)

/-- A concrete `PascalSegmentation` instance with two segmentation files. -/
def psegDemo : PascalSegmentation :=
  ⟨"/data".toList, "VOC2010".toList, "part".toList, "context".toList, none,
   [], [], [], [], [], ["a.mat".toList, "b.mat".toList]⟩

end Pascalseg

namespace Models

/-! ### Pixel-accuracy accounting (models.py lines 19-91, claims C4, C8,
C10).

Score tensors are modelled with integer scores (the claims do not depend on
float score values, only on comparisons); `torch.max(pred, dim=1)` returns
the first index of the maximum.  Labels and counts are integers; the final
accuracy and losses are rationals (the model of float arithmetic). -/

/-- Index of the first maximum of `vals`, scanning with current best. -/
def maxIdxGo : List ℤ → ℕ → ℤ → ℕ → ℕ
  | [], _, _, best => best
  | v :: t, i, bv, best =>
    if bv < v then maxIdxGo t (i + 1) v i else maxIdxGo t (i + 1) bv best

/-- Index of the first maximum of a channel-score list (0 if empty). -/
def maxIdx : List ℤ → ℕ
  | [] => 0
  | v :: t => maxIdxGo t 1 v 0

/-- `_, preds = torch.max(pred, dim=1)` on an `N × C × P` score tensor: for
each sample and each pixel, the channel index of the maximum score. -/
def argmaxDim1 (pred : List (List (List ℤ))) : List (List ℤ) :=
  pred.map (fun sample => sample.transpose.map (fun col => (maxIdx col : ℤ)))

/-- `valid = (label != ignore_index).long()`. -/
def validMask (label : List (List ℤ)) (ig : ℤ) : List (List ℤ) :=
  label.map (fun row => row.map (fun l => if l ≠ ig then (1 : ℤ) else 0))

/-- `valid *= samples_valid_mask.view(N, 1, ...)`: broadcast multiply of each
sample's row by its mask entry. -/
def scaleByMask (valid : List (List ℤ)) (mask : List ℤ) : List (List ℤ) :=
  List.zipWith (fun row m => row.map (fun v => v * m)) valid mask

/-- `(preds == label).long()`. -/
def eqIndicator (preds label : List (List ℤ)) : List (List ℤ) :=
  List.zipWith (fun prow lrow =>
    List.zipWith (fun p l => if p = l then (1 : ℤ) else 0) prow lrow) preds label

/-- Elementwise product of two grids. -/
def mulGrid (a b : List (List ℤ)) : List (List ℤ) :=
  List.zipWith (fun ra rb => List.zipWith (· * ·) ra rb) a b

/-- `torch.sum` over a grid. -/
def sumGrid (g : List (List ℤ)) : ℤ := (g.map (fun row => row.sum)).sum

/-- `SegmentationModuleBase.get_correct_and_valid_pixels` (models.py 59-91). -/
def get_correct_and_valid_pixels (pred : List (List (List ℤ)))
    (label : List (List ℤ)) (ignore_index : ℤ)
    (samples_valid_mask : Option (List ℤ)) : ℤ × ℤ :=
  let preds := argmaxDim1 pred
  let valid0 := validMask label ignore_index
  let valid :=
    match samples_valid_mask with
    | none => valid0
    | some mask => scaleByMask valid0 mask
  let acc_sum := sumGrid (mulGrid valid (eqIndicator preds label))
  let pixel_sum := sumGrid valid
  (acc_sum, pixel_sum)

/-- `SegmentationModuleBase.pixel_acc` (models.py 19-57). -/
def pixel_acc (pred : List (List (List ℤ))) (label : List (List ℤ))
    (ignore_index : ℤ) (samples_valid_mask : Option (List ℤ))
    (missing_score : ℚ) : ℚ :=
  let preds := argmaxDim1 pred
  let valid0 := validMask label ignore_index
  let valid :=
    match samples_valid_mask with
    | none => valid0
    | some mask => scaleByMask valid0 mask
  let acc_sum := sumGrid (mulGrid valid (eqIndicator preds label))
  let pixel_sum := sumGrid valid
  if pixel_sum = 0 then missing_score
  else (acc_sum : ℚ) / ((pixel_sum : ℚ) + 1 / 10 ^ 10)

/-- Correct pixels of one sample: pixels whose label differs from
`ignore_index` and whose prediction equals the label. -/
def countCorrectRow (prow lrow : List ℤ) (ig : ℤ) : ℤ :=
  (List.zipWith (fun p l => if l ≠ ig ∧ p = l then (1 : ℤ) else 0) prow lrow).sum

/-- Valid pixels of one sample: pixels whose label differs from
`ignore_index`. -/
def countValidRow (lrow : List ℤ) (ig : ℤ) : ℤ :=
  (lrow.map (fun l => if l ≠ ig then (1 : ℤ) else 0)).sum

/-- Correct-pixel count over only the samples whose mask entry is 1. -/
def maskedCorrect (preds label : List (List ℤ)) (ig : ℤ) (mask : List ℤ) : ℤ :=
  (List.zipWith (fun (rowpair : List ℤ × List ℤ) m =>
    if m = (1 : ℤ) then countCorrectRow rowpair.1 rowpair.2 ig else 0)
    (preds.zip label) mask).sum

/-- Valid-pixel count over only the samples whose mask entry is 1. -/
def maskedValid (label : List (List ℤ)) (ig : ℤ) (mask : List ℤ) : ℤ :=
  (List.zipWith (fun lrow m =>
    if m = (1 : ℤ) then countValidRow lrow ig else 0) label mask).sum

/-! ### `CrossEntropyLossWithValidationMask` (models.py 121-141, claim C5). -/

/-- `torch.mean` over all elements of a per-sample unreduced loss grid. -/
def tmean (g : List (List ℚ)) : ℚ :=
  (g.map (fun row => row.sum)).sum / ((g.map (fun row => (row.length : ℚ))).sum)

/-- `CrossEntropyLossWithValidationMask.forward` (models.py 131-141): the
framework primitive `super().forward(input, target)` — the unreduced cross
entropy, one value per target element of each sample — is taken as an input
grid; the mask is broadcast over each sample and the masked losses are
averaged over all elements. -/
def cewvm_forward (loss_unreduced : List (List ℚ)) (validation_mask : List ℚ) : ℚ :=
  tmean (List.zipWith (fun m row => row.map (fun v => m * v))
    validation_mask loss_unreduced)

/-! ### `SegmentationModule.forward`, training branch (models.py 176-216,
claim C6). -/

/-- The `output_switch` dict handed to the decoder. -/
structure OutputSwitch where
  object : Bool
  part : Bool
  scene : Bool
  material : Bool

/-- The decoder's `output_dict` (head values abstract). -/
structure PredDict (τ : Type) where
  object : Option τ
  part : Option τ
  scene : Option τ
  material : Option τ

/-- Head-presence structure of `UPerNet.forward` (models.py 478-583):
`output_dict` starts all-`None`; the scene head is filled iff
`output_switch['scene']`; material, object and part are filled iff their
switch is set, inside the guards
`output_switch['object'] or output_switch['part'] or output_switch['material']`
and (for object/part) `output_switch['object'] or output_switch['part']`.
The tensor values themselves are abstract parameters. -/
def upernet_forward (sw : OutputSwitch) (sceneV objV partV matV : τ) :
    PredDict τ where
  scene := if sw.scene then some sceneV else none
  material :=
    if sw.object || sw.part || sw.material then
      (if sw.material then some matV else none)
    else none
  object :=
    if sw.object || sw.part || sw.material then
      (if sw.object || sw.part then (if sw.object then some objV else none)
       else none)
    else none
  part :=
    if sw.object || sw.part || sw.material then
      (if sw.object || sw.part then (if sw.part then some partV else none)
       else none)
    else none

/-- The per-head loss multipliers. -/
structure LossScale where
  object : ℚ
  part : ℚ
  scene : ℚ
  material : ℚ

/-- The default loss scale of `SegmentationModule.__init__`
(models.py 159-162). -/
def defaultLossScale : LossScale := ⟨1, 1 / 2, 1 / 4, 1⟩

/-- `loss_dict` of the training branch. -/
structure LossDict where
  object : Option ℚ
  part : Option ℚ
  scene : Option ℚ
  material : Option ℚ
  total : Option ℚ

/-- A term of `sum([loss_dict[k] * self.loss_scale[k] for k in
loss_dict.keys()])`: an absent key contributes nothing. -/
def optScaled : Option ℚ → ℚ → ℚ
  | none, _ => 0
  | some v, s => v * s

/-- `SegmentationModule.forward` in training mode (`seg_size is None`) with
metric/loss calculations enabled (models.py 176-216): requests all four heads
from the decoder (`output_switch` all `True`), computes the loss of every
non-`None` head — the part loss as `part_loss` summed over
`enumerate(broden_dataset.object_with_part)` (the object classes that have
parts, an abstract parameter here since `joint_dataset` is dataset metadata)
— and sets `loss_dict['total']` to the scale-weighted sum over the computed
heads.  The criterion calls and `part_loss` are abstract functions of the
tensors they consume. -/
def segmentation_module_forward_train
    (decoderHeads : OutputSwitch → PredDict τ)
    (critObject critScene critMaterial : τ → ℚ)
    (partLossF : ℕ → ℕ → ℚ)
    (object_with_part : List ℕ)
    (loss_scale : LossScale) : LossDict :=
  let pred := decoderHeads ⟨true, true, true, true⟩
  let lobj := pred.object.map critObject
  let lpart := pred.part.map (fun _ =>
    (object_with_part.enum.foldl (fun acc p => acc + partLossF p.1 p.2) 0))
  let lscene := pred.scene.map critScene
  let lmat := pred.material.map critMaterial
  let total := optScaled lobj loss_scale.object +
    optScaled lpart loss_scale.part +
    optScaled lscene loss_scale.scene +
    optScaled lmat loss_scale.material
  ⟨lobj, lpart, lscene, lmat, some total⟩

end Models

/-! # Theorems -/

namespace Pascalseg

theorem mem_insertLe (le : α → α → Bool) (x a : α) (l : List α) :
    a ∈ insertLe le x l ↔ a = x ∨ a ∈ l := by
  induction l with
  | nil => simp [insertLe]
  | cons y t ih =>
    simp only [insertLe]
    by_cases h : le x y = true
    · simp [h]
    · simp [h, ih]
      tauto

theorem mem_insertionSort (le : α → α → Bool) (a : α) (l : List α) :
    a ∈ insertionSort le l ↔ a ∈ l := by
  induction l with
  | nil => simp [insertionSort]
  | cons y t ih => simp [insertionSort, mem_insertLe, ih]

theorem lookup_cons [BEq α] [LawfulBEq α] [DecidableEq α] (k k' : α) (v : β)
    (l : List (α × β)) :
    List.lookup k ((k', v) :: l) = if k = k' then some v else List.lookup k l := by
  simp only [List.lookup]
  split
  · rename_i h
    simp_all
  · rename_i h
    simp_all

theorem lookup_eq_some_of_mem [BEq α] [LawfulBEq α] [DecidableEq α] {l : List (α × β)}
    (hnd : (l.map Prod.fst).Nodup) {k : α} {v : β} (h : (k, v) ∈ l) :
    l.lookup k = some v := by
  induction l with
  | nil => simp at h
  | cons kv t ih =>
    obtain ⟨k0, v0⟩ := kv
    simp only [List.map_cons, List.nodup_cons] at hnd
    rcases List.mem_cons.mp h with heq | hmem
    · obtain ⟨rfl, rfl⟩ := Prod.mk.injEq .. ▸ (Prod.mk.inj heq)
      rw [lookup_cons]
      simp
    · have hne : k ≠ k0 := by
        rintro rfl
        exact hnd.1 (List.mem_map.mpr ⟨(k, v), hmem, rfl⟩)
      rw [lookup_cons, if_neg hne]
      exact ih hnd.2 hmem

theorem idxOf_cons_bq {α : Type} [BEq α] (a b : α) (l : List α) :
    (b :: l).indexOf a = bif b == a then 0 else l.indexOf a + 1 := by
  simp [List.indexOf, List.findIdx_cons]

theorem idxOf_lt_len_bq {α : Type} [BEq α] [LawfulBEq α] {a : α} {l : List α}
    (h : a ∈ l) : l.indexOf a < l.length := by
  induction l with
  | nil => simp at h
  | cons b t ih =>
    rw [idxOf_cons_bq]
    cases hb : (b == a) with
    | true => simp
    | false =>
      simp only [cond_false, List.length_cons]
      have ht : a ∈ t := by
        rcases List.mem_cons.mp h with h1 | h1
        · rw [h1] at hb; simp at hb
        · exact h1
      exact Nat.succ_lt_succ (ih ht)

theorem getD_idxOf_bq {α : Type} [BEq α] [LawfulBEq α] {a : α} {l : List α}
    (h : a ∈ l) (d : α) : l.getD (l.indexOf a) d = a := by
  induction l with
  | nil => simp at h
  | cons b t ih =>
    rw [idxOf_cons_bq]
    cases hb : (b == a) with
    | true =>
      simp only [cond_true, List.getD_cons_zero]
      exact beq_iff_eq.mp hb
    | false =>
      simp only [cond_false, List.getD_cons_succ]
      have ht : a ∈ t := by
        rcases List.mem_cons.mp h with h1 | h1
        · rw [h1] at hb; simp at hb
        · exact h1
      exact ih ht

theorem npkInv_step (raw : List ((ℕ × Str) × (Str × Str))) (st : NpkState)
    (k : ℕ × Str) (h : NpkInv raw st) : NpkInv raw (npkStep raw st k) := by
  obtain ⟨hnd, hal, hpk⟩ := h
  unfold NpkInv npkStep
  split
  · exact ⟨hnd, hal, hpk⟩
  · rename_i n hr
    split
    · rename_i code ha
      dsimp only
      refine ⟨hnd, hal, ?_⟩
      intro k' code' hl
      rw [lookup_cons] at hl
      by_cases hk : k' = k
      · rw [if_pos hk] at hl
        obtain rfl : code = code' := Option.some.inj hl
        exact ⟨n, hk ▸ hr, hal n code ha⟩
      · rw [if_neg hk] at hl
        exact hpk k' code' hl
    · rename_i ha
      split
      · rename_i hmem
        dsimp only
        refine ⟨hnd, ?_, ?_⟩
        · intro n' code' hl
          rw [lookup_cons] at hl
          by_cases hn : n' = n
          · rw [if_pos hn] at hl
            obtain rfl : st.pcn.indexOf n.2 = code' := Option.some.inj hl
            subst hn
            exact ⟨idxOf_lt_len_bq hmem, getD_idxOf_bq hmem []⟩
          · rw [if_neg hn] at hl
            exact hal n' code' hl
        · intro k' code' hl
          rw [lookup_cons] at hl
          by_cases hk : k' = k
          · rw [if_pos hk] at hl
            obtain rfl : st.pcn.indexOf n.2 = code' := Option.some.inj hl
            exact ⟨n, hk ▸ hr, idxOf_lt_len_bq hmem, getD_idxOf_bq hmem []⟩
          · rw [if_neg hk] at hl
            exact hpk k' code' hl
      · rename_i hmem
        dsimp only
        have hlen : st.pcn.length < (st.pcn ++ [n.2]).length := by
          simp
        have hgetnew : (st.pcn ++ [n.2]).getD st.pcn.length [] = n.2 := by
          rw [List.getD_eq_getElem _ _ hlen]
          exact List.getElem_concat_length _ _ _ rfl hlen
        have hold : ∀ code, code < st.pcn.length →
            (st.pcn ++ [n.2]).getD code [] = st.pcn.getD code [] :=
          fun code hc => List.getD_append _ _ _ _ hc
        refine ⟨?_, ?_, ?_⟩
        · simp [List.nodup_append, hnd, hmem]
        · intro n' code' hl
          rw [lookup_cons] at hl
          by_cases hn : n' = n
          · rw [if_pos hn] at hl
            obtain rfl : st.pcn.length = code' := Option.some.inj hl
            exact ⟨hlen, hn ▸ hgetnew⟩
          · rw [if_neg hn] at hl
            obtain ⟨hc, hg⟩ := hal n' code' hl
            refine ⟨?_, by rw [hold _ hc]; exact hg⟩
            simp only [List.length_append, List.length_cons, List.length_nil]
            omega
        · intro k' code' hl
          rw [lookup_cons] at hl
          by_cases hk : k' = k
          · rw [if_pos hk] at hl
            obtain rfl : st.pcn.length = code' := Option.some.inj hl
            exact ⟨n, hk ▸ hr, hlen, hgetnew⟩
          · rw [if_neg hk] at hl
            obtain ⟨n', hr', hc, hg⟩ := hpk k' code' hl
            refine ⟨n', hr', ?_, by rw [hold _ hc]; exact hg⟩
            simp only [List.length_append, List.length_cons, List.length_nil]
            omega

theorem npkInv_foldl (raw : List ((ℕ × Str) × (Str × Str)))
    (keys : List (ℕ × Str)) (st : NpkState) (h : NpkInv raw st) :
    NpkInv raw (keys.foldl (npkStep raw) st) := by
  induction keys generalizing st with
  | nil => exact h
  | cons k rest ih => exact ih _ (npkInv_step raw st k h)

theorem npkStep_lookup_isSome (raw : List ((ℕ × Str) × (Str × Str)))
    (st : NpkState) (k k' : ℕ × Str)
    (h : (st.part_key.lookup k).isSome) :
    (((npkStep raw st k').part_key).lookup k).isSome := by
  unfold npkStep
  split
  · exact h
  · rename_i n hr
    split
    · rename_i code ha
      dsimp only
      rw [lookup_cons]
      split <;> simp [h]
    · rename_i ha
      split
      · dsimp only
        rw [lookup_cons]
        split <;> simp [h]
      · dsimp only
        rw [lookup_cons]
        split <;> simp [h]

theorem npkStep_lookup_isSome_self (raw : List ((ℕ × Str) × (Str × Str)))
    (st : NpkState) (k : ℕ × Str) (hr : (raw.lookup k).isSome) :
    (((npkStep raw st k).part_key).lookup k).isSome := by
  unfold npkStep
  split
  · rename_i hnone
    rw [hnone] at hr
    simp at hr
  · rename_i n hra
    split
    · dsimp only
      rw [lookup_cons]
      simp
    · split <;> (dsimp only; rw [lookup_cons]; simp)

theorem npkFoldl_keeps_isSome (raw : List ((ℕ × Str) × (Str × Str)))
    (keys : List (ℕ × Str)) (st : NpkState) (k : ℕ × Str)
    (h : (st.part_key.lookup k).isSome) :
    (((keys.foldl (npkStep raw) st)).part_key.lookup k).isSome := by
  induction keys generalizing st with
  | nil => exact h
  | cons k1 rest ih => exact ih _ (npkStep_lookup_isSome raw st k k1 h)

theorem npkFoldl_lookup_isSome (raw : List ((ℕ × Str) × (Str × Str)))
    (keys : List (ℕ × Str)) (st : NpkState) (k : ℕ × Str)
    (hk : k ∈ keys) (hr : (raw.lookup k).isSome) :
    (((keys.foldl (npkStep raw) st)).part_key.lookup k).isSome := by
  induction keys generalizing st with
  | nil => simp at hk
  | cons k0 rest ih =>
    rcases List.mem_cons.mp hk with heq | hmem
    · subst heq
      exact npkFoldl_keeps_isSome raw rest _ k
        (npkStep_lookup_isSome_self raw st k hr)
    · exact ih _ hmem

theorem npkFin_inv (raw : List ((ℕ × Str) × (Str × Str))) :
    NpkInv raw (npkFin raw) := by
  apply npkInv_foldl
  refine ⟨by simp, ?_, ?_⟩
  · intro n' code hl
    simp [List.lookup] at hl
  · intro k' code hl
    simp [List.lookup] at hl

theorem npkFin_key (raw : List ((ℕ × Str) × (Str × Str)))
    (hnd : (raw.map Prod.fst).Nodup) (c : ℕ) (p : Str) (n : Str × Str)
    (hmem : ((c, p), n) ∈ raw) :
    ∃ code, (npkFin raw).part_key.lookup (c, p) = some code ∧
      code < (npkFin raw).pcn.length ∧ (npkFin raw).pcn.getD code [] = n.2 := by
  have hlook : raw.lookup (c, p) = some n := lookup_eq_some_of_mem hnd hmem
  have hkmem : (c, p) ∈ insertionSort keyLeb (raw.map Prod.fst) :=
    (mem_insertionSort _ _ _).mpr (List.mem_map.mpr ⟨((c, p), n), hmem, rfl⟩)
  have hsome : ((npkFin raw).part_key.lookup (c, p)).isSome := by
    unfold npkFin
    exact npkFoldl_lookup_isSome raw _ _ (c, p) hkmem (by rw [hlook]; rfl)
  obtain ⟨code, hcode⟩ := Option.isSome_iff_exists.mp hsome
  obtain ⟨n', hr', hlt, hg⟩ := (npkFin_inv raw).2.2 (c, p) code hcode
  rw [hlook] at hr'
  obtain rfl : n = n' := Option.some.inj hr'
  exact ⟨code, hcode, hlt, hg⟩

theorem normalize_part_key_eq_fin (kv : (ℕ × Str) × (Str × Str))
    (rest : List ((ℕ × Str) × (Str × Str))) :
    normalize_part_key (kv :: rest) =
      some ((npkFin (kv :: rest)).ocn, (npkFin (kv :: rest)).pcn,
        (npkFin (kv :: rest)).part_key) := rfl

/-- C1: for every finite raw map, `normalize_part_key` returns
`(object_class_names, part_class_names, part_key)` such that every key
`(c, p)` of the map is sent by `part_key` to a valid index of
`part_class_names` naming the key's normalized part name, and any two keys
with equal normalized part names receive the same part code. -/
theorem normalize_part_key_correct
    (raw : List ((ℕ × Str) × (Str × Str)))
    (hnd : (raw.map Prod.fst).Nodup)
    (ocn pcn : List Str) (pk : List ((ℕ × Str) × ℕ))
    (hres : normalize_part_key raw = some (ocn, pcn, pk)) :
    (∀ c p n, ((c, p), n) ∈ raw →
      ∃ code, pk.lookup (c, p) = some code ∧ code < pcn.length ∧
        pcn.getD code [] = n.2) ∧
    (∀ c₁ p₁ n₁ c₂ p₂ n₂, ((c₁, p₁), n₁) ∈ raw → ((c₂, p₂), n₂) ∈ raw →
      n₁.2 = n₂.2 → pk.lookup (c₁, p₁) = pk.lookup (c₂, p₂)) := by
  cases raw with
  | nil => simp [normalize_part_key] at hres
  | cons kv rest =>
    rw [normalize_part_key_eq_fin] at hres
    simp only [Option.some.injEq, Prod.mk.injEq] at hres
    obtain ⟨hocn, hpcn, hpk⟩ := hres
    subst hocn hpcn hpk
    have hkey := npkFin_key (kv :: rest) hnd
    refine ⟨fun c p n hm => hkey c p n hm, ?_⟩
    intro c₁ p₁ n₁ c₂ p₂ n₂ h₁ h₂ hn
    obtain ⟨code₁, hl₁, hlt₁, hg₁⟩ := hkey c₁ p₁ n₁ h₁
    obtain ⟨code₂, hl₂, hlt₂, hg₂⟩ := hkey c₂ p₂ n₂ h₂
    have heq : code₁ = code₂ := by
      have hgg := hg₁.trans (hn ▸ hg₂.symm)
      rw [List.getD_eq_getElem _ _ hlt₁, List.getD_eq_getElem _ _ hlt₂] at hgg
      exact (List.Nodup.getElem_inj_iff (npkFin_inv (kv :: rest)).1).mp hgg
    rw [hl₁, hl₂, heq]

/-- Witness for C1 at a concrete three-key map: keys `(1, engine_1)`,
`(1, engine_2)` and `(2, engine_1)` all normalize to part name `engine` and
are aliased to the same part code. -/
theorem normalize_part_key_correct_witness :
    normalize_part_key npkDemoRaw = some (npkDemoOcn, npkDemoPcn, npkDemoPk) ∧
    npkDemoPk.lookup (1, "engine_1".toList) =
      npkDemoPk.lookup (2, "engine_1".toList) ∧
    npkDemoPk.lookup (1, "engine_1".toList) = some 1 := by
  have h := normalize_part_key_correct npkDemoRaw (by decide)
    npkDemoOcn npkDemoPcn npkDemoPk rfl
  refine ⟨rfl, ?_, by decide⟩
  exact h.2 1 "engine_1".toList ("airplane".toList, "engine".toList)
    2 "engine_1".toList ("car".toList, "engine".toList)
    (by decide) (by decide) rfl

/-! ### Lemmas for `normalize_readable` (claim C3). -/

theorem replaceAllGo_congr (p r : Str) : ∀ (f₁ f₂ : ℕ) (s : Str),
    s.length ≤ f₁ → s.length ≤ f₂ →
    replaceAllGo p r f₁ s = replaceAllGo p r f₂ s := by
  intro f₁
  induction f₁ with
  | zero =>
    intro f₂ s h1 h2
    have hs : s = [] := List.length_eq_zero.mp (Nat.le_zero.mp h1)
    subst hs
    cases f₂ <;> rfl
  | succ f ih =>
    intro f₂ s h1 h2
    cases s with
    | nil => cases f₂ <;> rfl
    | cons c t =>
      cases f₂ with
      | zero => simp at h2
      | succ f₂ =>
        simp only [replaceAllGo]
        by_cases hc : p.isPrefixOf (c :: t) ∧ p ≠ []
        · rw [if_pos hc, if_pos hc]
          congr 1
          apply ih
          · have hp : 0 < p.length := List.length_pos.mpr hc.2
            simp only [List.length_drop, List.length_cons] at *
            omega
          · have hp : 0 < p.length := List.length_pos.mpr hc.2
            simp only [List.length_drop, List.length_cons] at *
            omega
        · rw [if_neg hc, if_neg hc]
          congr 1
          apply ih
          · simp at h1
            omega
          · simp at h2
            omega

theorem replaceAll_nil (p r : Str) : replaceAll p r [] = [] := rfl

theorem replaceAll_cons (p r : Str) (c : Char) (t : Str) :
    replaceAll p r (c :: t) =
      if p.isPrefixOf (c :: t) ∧ p ≠ [] then
        r ++ replaceAll p r ((c :: t).drop p.length)
      else c :: replaceAll p r t := by
  show replaceAllGo p r (t.length + 1) (c :: t) = _
  simp only [replaceAllGo]
  by_cases hc : p.isPrefixOf (c :: t) ∧ p ≠ []
  · rw [if_pos hc, if_pos hc]
    congr 1
    apply replaceAllGo_congr
    · have hp : 0 < p.length := List.length_pos.mpr hc.2
      simp only [List.length_drop, List.length_cons]
      omega
    · exact le_rfl
  · rw [if_neg hc, if_neg hc]
    rfl

theorem pySplitGo_congr : ∀ (f₁ f₂ : ℕ) (s : Str),
    s.length ≤ f₁ → s.length ≤ f₂ → pySplitGo f₁ s = pySplitGo f₂ s := by
  intro f₁
  induction f₁ with
  | zero =>
    intro f₂ s h1 h2
    have hs : s = [] := List.length_eq_zero.mp (Nat.le_zero.mp h1)
    subst hs
    cases f₂ <;> rfl
  | succ f ih =>
    intro f₂ s h1 h2
    cases s with
    | nil => cases f₂ <;> rfl
    | cons c t =>
      cases f₂ with
      | zero => simp at h2
      | succ f₂ =>
        simp only [pySplitGo]
        by_cases hc : isPyWhite c = true
        · rw [if_pos hc, if_pos hc]
          apply ih
          · simp at h1
            omega
          · simp at h2
            omega
        · rw [if_neg hc, if_neg hc]
          congr 1
          apply ih
          · have := List.Sublist.length_le
              (List.dropWhile_sublist (l := t) (fun d => !(isPyWhite d)))
            simp at h1
            omega
          · have := List.Sublist.length_le
              (List.dropWhile_sublist (l := t) (fun d => !(isPyWhite d)))
            simp at h2
            omega

theorem pySplit_cons (c : Char) (t : Str) :
    pySplit (c :: t) =
      if isPyWhite c then pySplit t
      else (c :: t.takeWhile (fun d => !(isPyWhite d))) ::
        pySplit (t.dropWhile (fun d => !(isPyWhite d))) := by
  show pySplitGo (t.length + 1) (c :: t) = _
  simp only [pySplitGo]
  by_cases hc : isPyWhite c = true
  · rw [if_pos hc, if_pos hc]
    rfl
  · rw [if_neg hc, if_neg hc]
    congr 1
    apply pySplitGo_congr
    · exact List.Sublist.length_le (List.dropWhile_sublist _)
    · exact le_rfl

theorem pfx_append_decomp {α : Type} {p a b : List α} (h : p <+: a ++ b) :
    p <+: a ∨ ∃ z, p = a ++ z ∧ z <+: b := by
  induction a generalizing p with
  | nil => exact Or.inr ⟨p, rfl, h⟩
  | cons c a' ih =>
    cases p with
    | nil => exact Or.inl List.nil_prefix
    | cons d p' =>
      rw [List.cons_append, List.cons_prefix_cons] at h
      obtain ⟨rfl, h'⟩ := h
      rcases ih h' with h1 | ⟨z, rfl, hz⟩
      · exact Or.inl (List.cons_prefix_cons.mpr ⟨rfl, h1⟩)
      · exact Or.inr ⟨z, rfl, hz⟩

theorem ifx_append_decomp {α : Type} {p a b : List α} (h : p <:+: a ++ b) :
    p <:+: a ∨ p <:+: b ∨
      ∃ y z, p = y ++ z ∧ y ≠ [] ∧ z ≠ [] ∧ y <:+ a ∧ z <+: b := by
  induction a generalizing p with
  | nil => exact Or.inr (Or.inl h)
  | cons c a' ih =>
    rw [List.cons_append, List.infix_cons_iff] at h
    rcases h with h | h
    · cases p with
      | nil => exact Or.inl List.nil_infix
      | cons d p' =>
        rw [List.cons_prefix_cons] at h
        obtain ⟨rfl, h'⟩ := h
        rcases pfx_append_decomp h' with h1 | ⟨z, rfl, hz⟩
        · exact Or.inl ((List.cons_prefix_cons.mpr ⟨rfl, h1⟩).isInfix)
        · by_cases hz0 : z = []
          · subst hz0
            rw [List.append_nil]
            exact Or.inl (List.infix_rfl)
          · exact Or.inr (Or.inr ⟨d :: a', z, rfl, by simp, hz0,
              List.suffix_rfl, hz⟩)
    · rcases ih h with h1 | h1 | ⟨y, z, rfl, hy, hz, hys, hzp⟩
      · exact Or.inl (List.infix_cons h1)
      · exact Or.inr (Or.inl h1)
      · exact Or.inr (Or.inr ⟨y, z, rfl, hy, hz, hys.trans (List.suffix_cons c a'), hzp⟩)

theorem aero_common_pfx :
    ∀ i ∈ List.range 9, ∀ q ∈ "airplane".toList.inits,
      q = [] ∨ ¬ q <+: ("aeroplane".toList.drop i) ∨ q <+: "aeroplane".toList := by
  decide

theorem aero_no_air_pfx :
    ∀ i ∈ List.range 9, ¬ ("airplane".toList <+: "aeroplane".toList.drop i) := by
  decide

theorem aero_tails_fact :
    ∀ y ∈ "airplane".toList.tails, y = [] ∨ ¬ y <+: "aeroplane".toList := by
  decide

theorem replaceAll_pfx_aux (s : Str) : ∀ (i : ℕ) (q : Str), q ≠ [] →
    q <+: ("aeroplane".toList.drop i) →
    q <+: replaceAll "aeroplane".toList "airplane".toList s → q <+: s := by
  induction s with
  | nil =>
    intro i q hne hqp hq
    rw [replaceAll_nil] at hq
    simp at hq
    exact absurd hq hne
  | cons c t ih =>
    intro i q hne hqp hq
    rw [replaceAll_cons] at hq
    split at hq
    · rename_i hpre
      by_cases hlen : q.length ≤ "airplane".toList.length
      · have hqr : q <+: "airplane".toList :=
          List.prefix_of_prefix_length_le hq (List.prefix_append _ _) hlen
        by_cases hi : i < 9
        · have hfact := aero_common_pfx i (List.mem_range.mpr hi) q
            ((List.mem_inits _ _).mpr hqr)
          rcases hfact with h | h | h
          · exact absurd h hne
          · exact absurd hqp h
          · exact h.trans (List.isPrefixOf_iff_prefix.mp hpre.1)
        · have hdrop : "aeroplane".toList.drop i = [] := by
            apply List.drop_eq_nil_of_le
            have h9 : ("aeroplane".toList).length = 9 := by decide
            omega
          rw [hdrop] at hqp
          simp at hqp
          exact absurd hqp hne
      · have hrq : "airplane".toList <+: q :=
          List.prefix_of_prefix_length_le (List.prefix_append _ _) hq
            (le_of_not_le hlen)
        have hrp : "airplane".toList <+: "aeroplane".toList.drop i :=
          hrq.trans hqp
        by_cases hi : i < 9
        · exact absurd hrp (aero_no_air_pfx i (List.mem_range.mpr hi))
        · have hdrop : "aeroplane".toList.drop i = [] := by
            apply List.drop_eq_nil_of_le
            have h9 : ("aeroplane".toList).length = 9 := by decide
            omega
          rw [hdrop] at hrp
          simp at hrp
    · cases q with
      | nil => exact absurd rfl hne
      | cons d q' =>
        rw [List.cons_prefix_cons] at hq
        obtain ⟨rfl, hq'⟩ := hq
        cases hq0 : q' with
        | nil => exact List.cons_prefix_cons.mpr ⟨rfl, List.nil_prefix⟩
        | cons e q'' =>
          have hq'ne : q' ≠ [] := by rw [hq0]; simp
          rw [← hq0] at *
          cases hdrop : "aeroplane".toList.drop i with
          | nil =>
            rw [hdrop] at hqp
            simp at hqp
          | cons f rest =>
            rw [hdrop, List.cons_prefix_cons] at hqp
            have hrest : rest = "aeroplane".toList.drop (i + 1) := by
              have := List.tail_drop "aeroplane".toList i
              rw [hdrop] at this
              exact this
            have := ih (i + 1) q' hq'ne (hrest ▸ hqp.2) hq'
            exact List.cons_prefix_cons.mpr ⟨rfl, this⟩

theorem replaceAll_no_occ_bounded : ∀ (n : ℕ) (s : Str), s.length ≤ n →
    ¬ ("aeroplane".toList <:+: replaceAll "aeroplane".toList "airplane".toList s) := by
  intro n
  induction n with
  | zero =>
    intro s hs
    have : s = [] := List.length_eq_zero.mp (Nat.le_zero.mp hs)
    subst this
    rw [replaceAll_nil]
    decide
  | succ n ih =>
    intro s hs hocc
    cases s with
    | nil =>
      rw [replaceAll_nil] at hocc
      revert hocc
      decide
    | cons c t =>
      rw [replaceAll_cons] at hocc
      split at hocc
      · rename_i hpre
        rcases ifx_append_decomp hocc with h | h | ⟨y, z, hyz, hy, hz, hys, hzp⟩
        · revert h
          decide
        · have hslen : 9 ≤ (c :: t).length := by
            have := (List.isPrefixOf_iff_prefix.mp hpre.1).length_le
            simpa using this
          refine ih ((c :: t).drop "aeroplane".toList.length) ?_ h
          have h9 : ("aeroplane".toList).length = 9 := by decide
          simp only [List.length_drop, List.length_cons, h9] at hs hslen ⊢
          omega
        · have hypfx : y <+: "aeroplane".toList := hyz ▸ List.prefix_append y z
          rcases aero_tails_fact y ((List.mem_tails _ _).mpr hys) with h | h
          · exact hy h
          · exact h hypfx
      · rename_i hnpre
        rw [List.infix_cons_iff] at hocc
        rcases hocc with h | h
        · have hp9 : ("aeroplane".toList : Str) = 'a' :: "eroplane".toList := by
            decide
          generalize hout :
            replaceAll "aeroplane".toList "airplane".toList t = out at h
          rw [hp9, List.cons_prefix_cons] at h
          obtain ⟨hc, h'⟩ := h
          subst hc
          rw [← hout] at h'
          have hstep := replaceAll_pfx_aux t 1 "eroplane".toList (by decide)
            (by decide) h'
          apply hnpre
          refine ⟨?_, by decide⟩
          rw [List.isPrefixOf_iff_prefix, hp9]
          exact List.cons_prefix_cons.mpr ⟨rfl, hstep⟩
        · exact ih t (by simp at hs; omega) h

theorem replaceAll_no_occ (s : Str) :
    ¬ ("aeroplane".toList <:+: replaceAll "aeroplane".toList "airplane".toList s) :=
  replaceAll_no_occ_bounded s.length s le_rfl

theorem takeWhile_append_all {p : Char → Bool} {w : Str} (s : Str)
    (h : ∀ c ∈ w, p c = true) : (w ++ s).takeWhile p = w ++ s.takeWhile p := by
  induction w with
  | nil => simp
  | cons c w' ih =>
    have hc : p c = true := h c (by simp)
    simp [List.takeWhile_cons, hc, ih (fun d hd => h d (by simp [hd]))]

theorem dropWhile_append_all {p : Char → Bool} {w : Str} (s : Str)
    (h : ∀ c ∈ w, p c = true) : (w ++ s).dropWhile p = s.dropWhile p := by
  induction w with
  | nil => simp
  | cons c w' ih =>
    have hc : p c = true := h c (by simp)
    simp [List.dropWhile_cons, hc, ih (fun d hd => h d (by simp [hd]))]

theorem pySplit_nil : pySplit [] = [] := rfl

theorem pySplit_sound : ∀ (n : ℕ) (s : Str), s.length ≤ n → ∀ w ∈ pySplit s,
    w ≠ [] ∧ (∀ c ∈ w, isPyWhite c = false) ∧ w <:+: s := by
  intro n
  induction n with
  | zero =>
    intro s hs w hw
    have hsn : s = [] := List.length_eq_zero.mp (Nat.le_zero.mp hs)
    subst hsn
    rw [pySplit_nil] at hw
    simp at hw
  | succ n ih =>
    intro s hs w hw
    cases s with
    | nil =>
      rw [pySplit_nil] at hw
      simp at hw
    | cons c t =>
      rw [pySplit_cons] at hw
      by_cases hc : isPyWhite c
      · rw [if_pos hc] at hw
        obtain ⟨h1, h2, h3⟩ := ih t (by simp at hs; omega) w hw
        exact ⟨h1, h2, List.infix_cons h3⟩
      · rw [if_neg hc] at hw
        rcases List.mem_cons.mp hw with rfl | hw2
        · refine ⟨by simp, ?_, ?_⟩
          · intro d hd
            rcases List.mem_cons.mp hd with rfl | hd2
            · exact Bool.not_eq_true _ ▸ (by simpa using hc)
            · simpa using List.mem_takeWhile_imp hd2
          · refine ⟨[], t.dropWhile (fun d => !(isPyWhite d)), ?_⟩
            simp [List.takeWhile_append_dropWhile]
        · have hlen : (t.dropWhile (fun d => !(isPyWhite d))).length ≤ n := by
            have := List.Sublist.length_le (List.dropWhile_sublist
              (l := t) (fun d => !(isPyWhite d)))
            simp at hs
            omega
          obtain ⟨h1, h2, h3⟩ := ih _ hlen w hw2
          refine ⟨h1, h2, h3.trans ?_⟩
          exact ((List.dropWhile_suffix _).trans (List.suffix_cons c t)).isInfix

theorem pySplit_single (w : Str) (hne : w ≠ [])
    (hw : ∀ c ∈ w, isPyWhite c = false) : pySplit w = [w] := by
  cases w with
  | nil => exact absurd rfl hne
  | cons c t =>
    rw [pySplit_cons, if_neg (by simp [hw c (by simp)])]
    rw [List.takeWhile_eq_self_iff.mpr (fun d hd => by simp [hw d (by simp [hd])])]
    rw [List.dropWhile_eq_nil_iff.mpr (fun d hd => by simp [hw d (by simp [hd])])]
    rw [pySplit_nil]

theorem pySplit_step (w r : Str) (hne : w ≠ [])
    (hw : ∀ c ∈ w, isPyWhite c = false) :
    pySplit (w ++ ' ' :: r) = w :: pySplit r := by
  cases w with
  | nil => exact absurd rfl hne
  | cons c w' =>
    rw [List.cons_append, pySplit_cons, if_neg (by simp [hw c (by simp)])]
    rw [takeWhile_append_all (' ' :: r) (fun d hd => by simp [hw d (by simp [hd])])]
    rw [dropWhile_append_all (' ' :: r) (fun d hd => by simp [hw d (by simp [hd])])]
    have hsp : isPyWhite ' ' = true := by decide
    have hps : pySplit (' ' :: r) = pySplit r := by
      rw [pySplit_cons, if_pos hsp]
    simp [List.takeWhile_cons, List.dropWhile_cons, hsp, hps]

theorem pySplit_joinWords : ∀ (ws : List Str),
    (∀ w ∈ ws, w ≠ [] ∧ ∀ c ∈ w, isPyWhite c = false) →
    pySplit (joinWords ws) = ws := by
  intro ws
  induction ws with
  | nil =>
    intro _
    rw [show joinWords [] = [] from rfl, pySplit_nil]
  | cons w ws ih =>
    intro h
    cases ws with
    | nil =>
      rw [show joinWords [w] = w from rfl]
      exact pySplit_single w (h w (by simp)).1 (h w (by simp)).2
    | cons w2 rest =>
      rw [show joinWords (w :: w2 :: rest) = w ++ ' ' :: joinWords (w2 :: rest)
        from rfl]
      rw [pySplit_step w _ (h w (by simp)).1 (h w (by simp)).2]
      rw [ih (fun x hx => h x (by simp [hx]))]

theorem joinWords_ifx (x : Str) (hne : x ≠ []) (hsp : ' ' ∉ x) :
    ∀ ws : List Str, x <:+: joinWords ws → ∃ w ∈ ws, x <:+: w := by
  intro ws
  induction ws with
  | nil =>
    intro h
    rw [show joinWords [] = [] from rfl] at h
    rcases h with ⟨s, t, hst⟩
    simp [List.append_eq_nil] at hst
    exact absurd hst.2.1 hne
  | cons w ws ih =>
    cases ws with
    | nil =>
      intro h
      exact ⟨w, by simp, h⟩
    | cons w2 rest =>
      intro h
      rw [show joinWords (w :: w2 :: rest) = w ++ ' ' :: joinWords (w2 :: rest)
        from rfl] at h
      rcases ifx_append_decomp h with h1 | h1 | ⟨y, z, hyz, hy, hz, hys, hzp⟩
      · exact ⟨w, by simp, h1⟩
      · rw [List.infix_cons_iff] at h1
        rcases h1 with h2 | h2
        · cases x with
          | nil => exact absurd rfl hne
          | cons c x' =>
            rw [List.cons_prefix_cons] at h2
            exact absurd (by simp [h2.1]) hsp
        · obtain ⟨w', hw', hx⟩ := ih h2
          exact ⟨w', by simp at hw' ⊢; tauto, hx⟩
      · cases z with
        | nil => exact absurd rfl hz
        | cons d z' =>
          rw [List.cons_prefix_cons] at hzp
          refine absurd ?_ hsp
          rw [hyz, ← hzp.1]
          simp

/-- C3: `normalize_readable` expands the fixed short part names to their long
forms (while a name absent from the table, such as `lwing`, is kept), leaves
no occurrence of the substring `aeroplane` in any output, and, when
`collapse_adjectives` is given, no whitespace-separated word of the returned
string is a member of `collapse_adjectives`. -/
theorem normalize_readable_correct :
    (∀ kv ∈ decoded_names, normalize_readable kv.1 none = kv.2) ∧
    normalize_readable "lwing".toList none = "lwing".toList ∧
    normalize_readable "aeroplane engine aeroplane".toList none =
      "airplane engine airplane".toList ∧
    (∀ (name : Str) (ca : Option (List Str)),
      ¬ ("aeroplane".toList <:+: normalize_readable name ca)) ∧
    (∀ (name : Str) (adjs : List Str) (w : Str),
      w ∈ pySplit (normalize_readable name (some adjs)) → w ∉ adjs) := by
  refine ⟨by decide, by decide, by decide, ?_, ?_⟩
  · intro name ca
    cases ca with
    | none => exact replaceAll_no_occ _
    | some adjs =>
      intro hocc
      simp only [normalize_readable] at hocc
      obtain ⟨w, hwmem, hwifx⟩ := joinWords_ifx _ (by decide) (by decide) _ hocc
      have hw2 := (List.mem_filter.mp hwmem).1
      have hsound := (pySplit_sound _ _ le_rfl w hw2).2.2
      exact replaceAll_no_occ _ (hwifx.trans hsound)
  · intro name adjs w hw
    simp only [normalize_readable] at hw
    rw [pySplit_joinWords _ (fun u hu =>
      ⟨(pySplit_sound _ _ le_rfl u (List.mem_filter.mp hu).1).1,
       (pySplit_sound _ _ le_rfl u (List.mem_filter.mp hu).1).2.1⟩)] at hw
    have hmem := (List.mem_filter.mp hw).2
    simp at hmem
    exact hmem

/-! ### Theorems for `load_part2ind` (claim C2). -/

/-- C2 counterexample: the claim says every key of the map returned by
`load_part2ind` is a pair of two numbers (an object index and a part index).
On a file containing the line `pimap{1}('lwing') = 3; % left wing` the
returned map has the key `(1, 'lwing')`, whose second component is the part
SHORT NAME, a non-numeric string (it contains no digit at all); the part
number 3 is discarded.  The values are name pairs as claimed. -/
theorem load_part2ind_key_is_string :
    ((1, "lwing".toList), ("aeroplane".toList, "left wing".toList)) ∈
      (load_part2ind p2iDemo).getD [] ∧
    ("lwing".toList.all (fun c => c.isDigit)) = false := by
  constructor
  · show _ ∈ (load_part2ind p2iDemo).getD []
    rw [show load_part2ind p2iDemo = some p2iDemoExpected from rfl]
    decide
  · decide

/-- C2 (amended): `load_part2ind` parses the part2ind.m lines into an ordered
map whose keys are (object index, part short-name) pairs — a number and a
string — and whose values are (object name, human-readable part name) pairs.
Verified exactly on a file exercising every line pattern: plain part lines
(with and without a readable-name comment), sprintf ranges with a
multiple-part comment, the silhouette marker, and the keySet/valueSet object
copy. -/
theorem load_part2ind_parses_demo :
    load_part2ind p2iDemo = some p2iDemoExpected := rfl

/-! ### Lemmas for `load_parts_segmentation` (claim C9). -/

theorem mem_of_lookup_eq_some {α β : Type} [BEq α] [LawfulBEq α]
    {l : List (α × β)} {k : α} {v : β} (h : l.lookup k = some v) : (k, v) ∈ l := by
  induction l with
  | nil => simp [List.lookup] at h
  | cons kv t ih =>
    obtain ⟨k0, v0⟩ := kv
    simp only [List.lookup] at h
    cases hbe : (k == k0) with
    | true =>
      rw [hbe] at h
      simp only [Option.some.injEq] at h
      subst h
      exact List.mem_cons.mpr (Or.inl (by rw [beq_iff_eq.mp hbe]))
    | false =>
      rw [hbe] at h
      exact List.mem_cons.mpr (Or.inr (ih h))

theorem gridShapeZ_row_len {g : List (List ℤ)} {hh ww : ℕ}
    (h : GridShapeZ g hh ww) {y : ℕ} (hy : y < hh) :
    (g.getD y []).length = ww := by
  have hyl : y < g.length := by rw [h.1]; exact hy
  rw [List.getD_eq_getElem _ _ hyl]
  exact h.2 _ (List.getElem_mem hyl)

theorem gridShapeB_row_len {m : List (List Bool)} {hh ww : ℕ}
    (h : GridShapeB m hh ww) {y : ℕ} (hy : y < hh) :
    (m.getD y []).length = ww := by
  have hyl : y < m.length := by rw [h.1]; exact hy
  rw [List.getD_eq_getElem _ _ hyl]
  exact h.2 _ (List.getElem_mem hyl)

theorem rowApply_getD (v : ℤ) : ∀ (row : List ℤ) (mrow : List Bool) (x : ℕ),
    x < row.length → x < mrow.length →
    (List.zipWith (fun xx b => if b then v else xx) row mrow).getD x 0 =
      if (mrow.getD x false) then v else row.getD x 0 := by
  intro row
  induction row with
  | nil =>
    intro mrow x hx _
    simp at hx
  | cons r rs ih =>
    intro mrow x hx hmx
    cases mrow with
    | nil => simp at hmx
    | cons b bs =>
      cases x with
      | zero => simp
      | succ x' =>
        simp only [List.zipWith_cons_cons, List.getD_cons_succ]
        exact ih bs x' (by simp at hx; omega) (by simp at hmx; omega)

theorem applyMask_cell (v : ℤ) : ∀ (g : List (List ℤ)) (m : List (List Bool))
    (y x : ℕ), y < g.length → y < m.length →
    x < (g.getD y []).length → x < (m.getD y []).length →
    cellAt (applyMask g m v) y x =
      if coversAt m y x then v else cellAt g y x := by
  intro g
  induction g with
  | nil =>
    intro m y x hy _ _ _
    simp at hy
  | cons row rs ih =>
    intro m y x hy hmy hx hmx
    cases m with
    | nil => simp at hmy
    | cons mrow ms =>
      cases y with
      | zero =>
        simp only [applyMask, List.zipWith_cons_cons, cellAt, coversAt,
          List.getD_cons_zero]
        exact rowApply_getD v row mrow x (by simpa using hx) (by simpa using hmx)
      | succ y' =>
        simp only [applyMask, List.zipWith_cons_cons, cellAt, coversAt,
          List.getD_cons_succ]
        simp only [List.getD_cons_succ] at hx hmx
        exact ih ms y' x (by simpa using hy) (by simpa using hmy) hx hmx

theorem applyMask_shape {g : List (List ℤ)} {m : List (List Bool)} {v : ℤ}
    {hh ww : ℕ} (hg : GridShapeZ g hh ww) (hm : GridShapeB m hh ww) :
    GridShapeZ (applyMask g m v) hh ww := by
  constructor
  · simp [applyMask, List.length_zipWith, hg.1, hm.1]
  · intro row hrow
    rw [List.mem_iff_getElem] at hrow
    obtain ⟨i, hi, heq⟩ := hrow
    simp only [applyMask] at hi heq
    rw [List.getElem_zipWith] at heq
    have hig : i < g.length := by
      simp only [applyMask, List.length_zipWith] at hi
      omega
    have him : i < m.length := by
      simp only [applyMask, List.length_zipWith] at hi
      omega
    rw [← heq]
    simp only [List.length_zipWith]
    rw [hg.2 _ (List.getElem_mem hig), hm.2 _ (List.getElem_mem him)]
    simp

theorem zerosGrid_shape (hh ww : ℕ) : GridShapeZ (zerosGrid hh ww) hh ww := by
  constructor
  · simp [zerosGrid]
  · intro row hrow
    simp only [zerosGrid, List.mem_replicate] at hrow
    rw [hrow.2]
    simp

theorem zerosGrid_cell {hh ww y x : ℕ} (hy : y < hh) (hx : x < ww) :
    cellAt (zerosGrid hh ww) y x = 0 := by
  unfold cellAt zerosGrid
  have h1 : y < (List.replicate hh (List.replicate ww (0 : ℤ))).length := by
    simp
    omega
  rw [List.getD_eq_getElem _ _ h1, List.getElem_replicate]
  have h2 : x < (List.replicate ww (0 : ℤ)).length := by
    simp
    omega
  rw [List.getD_eq_getElem _ _ h2, List.getElem_replicate]

theorem foldWrites_shape {hh ww : ℕ} :
    ∀ (ops : List (List (List Bool) × ℕ)) (g0 : List (List ℤ)),
    GridShapeZ g0 hh ww → (∀ op ∈ ops, GridShapeB op.1 hh ww) →
    GridShapeZ (foldWrites ops g0) hh ww := by
  intro ops
  induction ops with
  | nil => intro g0 hg0 _; exact hg0
  | cons op rest ih =>
    intro g0 hg0 hops
    exact ih _ (applyMask_shape hg0 (hops op (by simp)))
      (fun o ho => hops o (by simp [ho]))

theorem foldWrites_cell {hh ww : ℕ} :
    ∀ (ops : List (List (List Bool) × ℕ)) (g0 : List (List ℤ)),
    GridShapeZ g0 hh ww → (∀ op ∈ ops, GridShapeB op.1 hh ww) →
    ∀ y x, y < hh → x < ww →
    cellAt (foldWrites ops g0) y x =
      (match lastWrite ops y x with
       | some n => toInt16 n
       | none => cellAt g0 y x) := by
  intro ops
  induction ops with
  | nil =>
    intro g0 _ _ y x _ _
    rfl
  | cons op rest ih =>
    intro g0 hg0 hops y x hy hx
    have hop : GridShapeB op.1 hh ww := hops op (by simp)
    have hg1 : GridShapeZ (applyMask g0 op.1 (toInt16 op.2)) hh ww :=
      applyMask_shape hg0 hop
    have hstep := ih (applyMask g0 op.1 (toInt16 op.2)) hg1
      (fun o ho => hops o (by simp [ho])) y x hy hx
    have hcell := applyMask_cell (toInt16 op.2) g0 op.1 y x
      (by rw [hg0.1]; exact hy) (by rw [hop.1]; exact hy)
      (by rw [gridShapeZ_row_len hg0 hy]; exact hx) (by rw [gridShapeB_row_len hop hy]; exact hx)
    show cellAt (foldWrites rest (applyMask g0 op.1 (toInt16 op.2))) y x = _
    rw [hstep]
    unfold lastWrite
    rw [show (op :: rest).reverse = rest.reverse ++ [op] from by simp]
    rw [List.find?_append]
    cases hfind : rest.reverse.find? (fun o => coversAt o.1 y x) with
    | some o => simp [Option.or]
    | none =>
      simp only [Option.or, Option.map]
      rw [hcell]
      cases hcov : coversAt op.1 y x with
      | true => simp [List.find?, hcov]
      | false => simp [List.find?, hcov]

theorem partsFold_eq (pk : List ((ℕ × Str) × ℕ)) (ci : ℕ) :
    ∀ (parts : List AnnPart) (pseg : List (List ℤ)),
    (∀ p ∈ parts, (pk.lookup (ci, p.part_name)).isSome) →
    (parts.foldlM (fun (pseg : List (List ℤ)) (part : AnnPart) =>
        match pk.lookup (ci, part.part_name) with
        | none => none
        | some code => some (applyMask pseg part.mask (toInt16 code))) pseg)
      = some (foldWrites (parts.map (fun p =>
          (p.mask, (pk.lookup (ci, p.part_name)).getD 0))) pseg) := by
  intro parts
  induction parts with
  | nil => intro pseg _; rfl
  | cons p rest ih =>
    intro pseg hlk
    obtain ⟨code, hcode⟩ := Option.isSome_iff_exists.mp (hlk p (by simp))
    rw [List.foldlM_cons, hcode]
    show (rest.foldlM _ (applyMask pseg p.mask (toInt16 code))) = _
    rw [ih _ (fun q hq => hlk q (by simp [hq]))]
    rw [show (p :: rest).map (fun p =>
        (p.mask, (pk.lookup (ci, p.part_name)).getD 0)) =
      (p.mask, (pk.lookup (ci, p.part_name)).getD 0) ::
        rest.map (fun p => (p.mask, (pk.lookup (ci, p.part_name)).getD 0))
      from rfl]
    rw [hcode]
    rfl

theorem instFold_eq (pk : List ((ℕ × Str) × ℕ)) :
    ∀ (instances : List AnnInstance) (acc : List (List ℤ) × List (List ℤ)),
    (∀ inst ∈ instances, ∀ p ∈ inst.parts,
      (pk.lookup (inst.class_ind, p.part_name)).isSome) →
    (instances.foldlM (fun (acc : List (List ℤ) × List (List ℤ))
        (inst : AnnInstance) =>
      let oseg := applyMask acc.1 inst.mask (toInt16 inst.class_ind)
      (inst.parts.foldlM (fun (pseg : List (List ℤ)) (part : AnnPart) =>
        match pk.lookup (inst.class_ind, part.part_name) with
        | none => none
        | some code => some (applyMask pseg part.mask (toInt16 code)))
        acc.2).map (fun pseg => (oseg, pseg))) acc)
    = some (foldWrites (objOps instances) acc.1,
            foldWrites (partOps instances pk) acc.2) := by
  intro instances
  induction instances with
  | nil => intro acc _; rfl
  | cons inst rest ih =>
    intro acc hlk
    rw [List.foldlM_cons]
    rw [partsFold_eq pk inst.class_ind inst.parts acc.2
      (fun p hp => hlk inst (by simp) p hp)]
    show (rest.foldlM _
      (applyMask acc.1 inst.mask (toInt16 inst.class_ind),
       foldWrites (inst.parts.map (fun p =>
         (p.mask, (pk.lookup (inst.class_ind, p.part_name)).getD 0))) acc.2)) = _
    rw [ih _ (fun i hi p hp => hlk i (by simp [hi]) p hp)]
    show some _ = some _
    congr 1
    show (foldWrites (objOps rest) _, foldWrites (partOps rest pk) _) = _
    rw [show objOps (inst :: rest) = (inst.mask, inst.class_ind) :: objOps rest
      from rfl]
    rw [show partOps (inst :: rest) pk =
      (inst.parts.map (fun p =>
        (p.mask, (pk.lookup (inst.class_ind, p.part_name)).getD 0))) ++
        partOps rest pk from by simp [partOps]]
    rw [show ∀ (o : List (List Bool) × ℕ) ops g0,
        foldWrites (o :: ops) g0 = foldWrites ops (applyMask g0 o.1 (toInt16 o.2))
      from fun o ops g0 => rfl]
    rw [show ∀ ops1 ops2 (g0 : List (List ℤ)),
        foldWrites (ops1 ++ ops2) g0 = foldWrites ops2 (foldWrites ops1 g0)
      from fun ops1 ops2 g0 => List.foldl_append ..]

theorem toInt16_of_lt {n : ℕ} (h : n < 2 ^ 15) : toInt16 n = n := by
  unfold toInt16
  have h1 : (2 : ℤ) ^ 15 = 32768 := by norm_num
  have h2 : (2 : ℤ) ^ 16 = 65536 := by norm_num
  have h3 : n < 32768 := by
    have : (2 : ℕ) ^ 15 = 32768 := by norm_num
    omega
  rw [h1, h2]
  omega

/-- C9: `load_parts_segmentation` returns the scalar pair `(0, 0)` if and
only if the annotation has no object instance; otherwise it returns two
arrays of the first instance's mask shape, in which a pixel's object value is
the class index of the last instance (in file order) whose mask covers it,
and a pixel's part value is the part code, looked up in `part_key` under the
owning instance's class index and the part's name, of the last part mask
covering it (and `0` where nothing covers). -/
theorem load_parts_segmentation_correct
    (instances : List AnnInstance) (pk : List ((ℕ × Str) × ℕ))
    (hshape : ∀ inst ∈ instances,
      GridShapeB inst.mask (firstMaskH instances) (firstMaskW instances) ∧
      ∀ p ∈ inst.parts,
        GridShapeB p.mask (firstMaskH instances) (firstMaskW instances))
    (hlk : ∀ inst ∈ instances, ∀ p ∈ inst.parts,
      (pk.lookup (inst.class_ind, p.part_name)).isSome)
    (hci : ∀ inst ∈ instances, inst.class_ind < 2 ^ 15)
    (hcode : ∀ kv ∈ pk, kv.2 < 2 ^ 15) :
    (load_parts_segmentation instances pk = some PartsSegResult.scalars ↔
      instances = []) ∧
    ∀ inst0 rest, instances = inst0 :: rest →
      ∃ oseg pseg,
        load_parts_segmentation instances pk =
          some (PartsSegResult.segs oseg pseg) ∧
        GridShapeZ oseg (firstMaskH instances) (firstMaskW instances) ∧
        GridShapeZ pseg (firstMaskH instances) (firstMaskW instances) ∧
        ∀ y x, y < firstMaskH instances → x < firstMaskW instances →
          cellAt oseg y x = (match lastWrite (objOps instances) y x with
            | some n => (n : ℤ)
            | none => 0) ∧
          cellAt pseg y x = (match lastWrite (partOps instances pk) y x with
            | some n => (n : ℤ)
            | none => 0) := by
  cases hinst : instances with
  | nil =>
    subst hinst
    refine ⟨by simp [load_parts_segmentation], ?_⟩
    intro inst0 rest h
    simp at h
  | cons inst0 rest =>
    subst hinst
    have hres : load_parts_segmentation (inst0 :: rest) pk =
        some (PartsSegResult.segs
          (foldWrites (objOps (inst0 :: rest))
            (zerosGrid (firstMaskH (inst0 :: rest)) (firstMaskW (inst0 :: rest))))
          (foldWrites (partOps (inst0 :: rest) pk)
            (zerosGrid (firstMaskH (inst0 :: rest))
              (firstMaskW (inst0 :: rest))))) := by
      simp only [load_parts_segmentation]
      rw [instFold_eq pk (inst0 :: rest) _ hlk]
      rfl
    constructor
    · rw [hres]
      constructor
      · intro h
        exact absurd (Option.some.inj h) (by simp)
      · intro h
        simp at h
    · intro i0 r0 heq
      obtain ⟨rfl, rfl⟩ : inst0 = i0 ∧ rest = r0 := by
        constructor <;> [exact (List.cons.inj heq).1; exact (List.cons.inj heq).2]
      refine ⟨_, _, hres, ?_, ?_, ?_⟩
      · exact foldWrites_shape _ _ (zerosGrid_shape _ _)
          (fun op hop => by
            obtain ⟨i, hi, heq2⟩ := List.mem_map.mp hop
            rw [← heq2]
            exact (hshape i hi).1)
      · exact foldWrites_shape _ _ (zerosGrid_shape _ _)
          (fun op hop => by
            simp only [partOps, List.mem_flatMap, List.mem_map] at hop
            obtain ⟨i, hi, p, hp, heq2⟩ := hop
            rw [← heq2]
            exact (hshape i hi).2 p hp)
      · intro y x hy hx
        have hobjshape : ∀ op ∈ objOps (inst0 :: rest),
            GridShapeB op.1 (firstMaskH (inst0 :: rest))
              (firstMaskW (inst0 :: rest)) := by
          intro op hop
          obtain ⟨i, hi, heq2⟩ := List.mem_map.mp hop
          rw [← heq2]
          exact (hshape i hi).1
        have hpartshape : ∀ op ∈ partOps (inst0 :: rest) pk,
            GridShapeB op.1 (firstMaskH (inst0 :: rest))
              (firstMaskW (inst0 :: rest)) := by
          intro op hop
          simp only [partOps, List.mem_flatMap, List.mem_map] at hop
          obtain ⟨i, hi, p, hp, heq2⟩ := hop
          rw [← heq2]
          exact (hshape i hi).2 p hp
        constructor
        · rw [foldWrites_cell _ _ (zerosGrid_shape _ _) hobjshape y x hy hx]
          cases hlast : lastWrite (objOps (inst0 :: rest)) y x with
          | none => exact zerosGrid_cell hy hx
          | some n =>
            obtain ⟨op, hfind, hsnd⟩ : ∃ op,
                (objOps (inst0 :: rest)).reverse.find?
                  (fun op => coversAt op.1 y x) = some op ∧ op.2 = n := by
              unfold lastWrite at hlast
              cases hf : (objOps (inst0 :: rest)).reverse.find?
                  (fun op => coversAt op.1 y x) with
              | none => rw [hf] at hlast; simp at hlast
              | some op =>
                rw [hf] at hlast
                exact ⟨op, rfl, Option.some.inj hlast⟩
            have hmem : op ∈ objOps (inst0 :: rest) := by
              have := List.mem_of_find?_eq_some hfind
              exact (List.mem_reverse).mp this
            obtain ⟨i, hi, heq2⟩ := List.mem_map.mp hmem
            have : n < 2 ^ 15 := by
              rw [← hsnd, ← heq2]
              exact hci i hi
            exact toInt16_of_lt this
        · rw [foldWrites_cell _ _ (zerosGrid_shape _ _) hpartshape y x hy hx]
          cases hlast : lastWrite (partOps (inst0 :: rest) pk) y x with
          | none => exact zerosGrid_cell hy hx
          | some n =>
            obtain ⟨op, hfind, hsnd⟩ : ∃ op,
                (partOps (inst0 :: rest) pk).reverse.find?
                  (fun op => coversAt op.1 y x) = some op ∧ op.2 = n := by
              unfold lastWrite at hlast
              cases hf : (partOps (inst0 :: rest) pk).reverse.find?
                  (fun op => coversAt op.1 y x) with
              | none => rw [hf] at hlast; simp at hlast
              | some op =>
                rw [hf] at hlast
                exact ⟨op, rfl, Option.some.inj hlast⟩
            have hmem : op ∈ partOps (inst0 :: rest) pk := by
              have := List.mem_of_find?_eq_some hfind
              exact (List.mem_reverse).mp this
            simp only [partOps, List.mem_flatMap, List.mem_map] at hmem
            obtain ⟨i, hi, p, hp, heq2⟩ := hmem
            obtain ⟨code, hcd⟩ := Option.isSome_iff_exists.mp (hlk i hi p hp)
            have hkv : ((i.class_ind, p.part_name), code) ∈ pk :=
              mem_of_lookup_eq_some hcd
            have : n < 2 ^ 15 := by
              rw [← hsnd, ← heq2]
              simp only [hcd, Option.getD_some]
              exact hcode _ hkv
            exact toInt16_of_lt this

/-- Witness for C9 at a one-instance annotation: the object layer holds class
1 where the instance mask covers, the part layer holds the looked-up code 5
where the part mask covers, and zero elsewhere. -/
theorem load_parts_segmentation_correct_witness :
    load_parts_segmentation lpsDemoInstances lpsDemoPk =
      some (PartsSegResult.segs [[1, 0]] [[0, 5]]) ∧
    lastWrite (partOps lpsDemoInstances lpsDemoPk) 0 1 = some 5 := by
  obtain ⟨oseg, pseg, hres, hsh1, hsh2, hcells⟩ :=
    (load_parts_segmentation_correct lpsDemoInstances lpsDemoPk
      (by decide) (by decide) (by decide) (by decide)).2 _ _ rfl
  refine ⟨?_, by decide⟩
  have heval : load_parts_segmentation lpsDemoInstances lpsDemoPk =
      some (PartsSegResult.segs [[1, 0]] [[0, 5]]) := by decide
  exact heval

/-! ### Theorems for `metadata` / `resolve_segmentation` (claim C7). -/

/-- C7: the parts lookup table is static: the first four components of
`metadata(i)` (directory, partdir, contextdir, part_key) are the same for
every valid index, only the segmentation file name varies; and
`resolve_segmentation` returns the metadata it was handed unchanged: it
reads but never modifies any of its components. -/
theorem pascal_metadata_static (p : PascalSegmentation) (i j : ℕ)
    (hi : i < p.segs.length) (hj : j < p.segs.length) :
    ((p.metadata i hi).1 = (p.metadata j hj).1 ∧
     (p.metadata i hi).2.1 = (p.metadata j hj).2.1 ∧
     (p.metadata i hi).2.2.1 = (p.metadata j hj).2.2.1 ∧
     (p.metadata i hi).2.2.2.1 = (p.metadata j hj).2.2.2.1) ∧
    (∀ fsP fsC (m : PascalMeta) cats out,
      resolve_segmentation fsP fsC m cats = some out → out.2.2 = m) := by
  refine ⟨⟨rfl, rfl, rfl, rfl⟩, ?_⟩
  intro fsP fsC m cats out hres
  simp only [resolve_segmentation] at hres
  split at hres
  · exact absurd hres (by simp)
  · split at hres
    · exact absurd hres (by simp)
    · have h := Option.some.inj hres
      rw [← h]

/-- Witness for C7 at a concrete instance with two segmentation files. -/
theorem pascal_metadata_static_witness :
    (psegDemo.metadata 0 (by decide)).1 = (psegDemo.metadata 1 (by decide)).1 ∧
    (psegDemo.metadata 0 (by decide)).2.2.2.1 =
      (psegDemo.metadata 1 (by decide)).2.2.2.1 := by
  have h := pascal_metadata_static psegDemo 0 1 (by decide) (by decide)
  exact ⟨h.1.1, h.1.2.2.2⟩

/-- Witness for C3: the table key `lfho` expands to `left front hoof`, and
with `collapse_adjectives = ["left"]` the word `engine` survives in the output
of `left engine` while `left` is dropped. -/
theorem normalize_readable_correct_witness :
    normalize_readable "lfho".toList none = "left front hoof".toList ∧
    "engine".toList ∉ ["left".toList] ∧
    normalize_readable "left engine".toList (some ["left".toList]) =
      "engine".toList := by
  refine ⟨?_, ?_, by decide⟩
  · exact normalize_readable_correct.1 ("lfho".toList, "left front hoof".toList)
      (by decide)
  · exact normalize_readable_correct.2.2.2.2 "left engine".toList
      ["left".toList] "engine".toList (by decide)

end Pascalseg

namespace Models

/-! ### Row and grid lemmas for the masked pixel counts (claim C4). -/

theorem validMask_cons (r : List ℤ) (t : List (List ℤ)) (ig : ℤ) :
    validMask (r :: t) ig =
      (r.map (fun l => if l ≠ ig then (1 : ℤ) else 0)) :: validMask t ig := rfl

theorem scaleByMask_cons (v : List ℤ) (vt : List (List ℤ)) (m : ℤ) (mt : List ℤ) :
    scaleByMask (v :: vt) (m :: mt) =
      (v.map (fun x => x * m)) :: scaleByMask vt mt := rfl

theorem eqIndicator_cons (prow : List ℤ) (pt : List (List ℤ)) (lrow : List ℤ)
    (lt : List (List ℤ)) :
    eqIndicator (prow :: pt) (lrow :: lt) =
      (List.zipWith (fun p l => if p = l then (1 : ℤ) else 0) prow lrow) ::
        eqIndicator pt lt := rfl

theorem mulGrid_cons (a : List ℤ) (at2 : List (List ℤ)) (b : List ℤ)
    (bt : List (List ℤ)) :
    mulGrid (a :: at2) (b :: bt) = (List.zipWith (· * ·) a b) :: mulGrid at2 bt := rfl

theorem sumGrid_cons (r : List ℤ) (t : List (List ℤ)) :
    sumGrid (r :: t) = r.sum + sumGrid t := rfl

theorem maskedCorrect_cons (prow : List ℤ) (pt : List (List ℤ)) (lrow : List ℤ)
    (lt : List (List ℤ)) (ig m : ℤ) (mt : List ℤ) :
    maskedCorrect (prow :: pt) (lrow :: lt) ig (m :: mt) =
      (if m = 1 then countCorrectRow prow lrow ig else 0) +
        maskedCorrect pt lt ig mt := rfl

theorem maskedValid_cons (lrow : List ℤ) (lt : List (List ℤ)) (ig m : ℤ)
    (mt : List ℤ) :
    maskedValid (lrow :: lt) ig (m :: mt) =
      (if m = 1 then countValidRow lrow ig else 0) + maskedValid lt ig mt := rfl

theorem row_correct_eq (ig : ℤ) : ∀ (m : ℤ), m = 0 ∨ m = 1 →
    ∀ (prow lrow : List ℤ),
    (List.zipWith (· * ·)
      ((lrow.map (fun l => if l ≠ ig then (1 : ℤ) else 0)).map (fun v => v * m))
      (List.zipWith (fun p l => if p = l then (1 : ℤ) else 0) prow lrow)).sum
      = if m = 1 then countCorrectRow prow lrow ig else 0 := by
  rintro m (rfl | rfl)
  · intro prow
    induction prow with
    | nil =>
      intro lrow
      simp [countCorrectRow]
    | cons p pt ih =>
      intro lrow
      cases lrow with
      | nil => simp
      | cons l lt =>
        simp only [List.map_cons, List.zipWith_cons_cons, List.sum_cons]
        rw [ih lt]
        simp
  · intro prow
    induction prow with
    | nil =>
      intro lrow
      simp [countCorrectRow]
    | cons p pt ih =>
      intro lrow
      cases lrow with
      | nil => simp [countCorrectRow]
      | cons l lt =>
        simp only [List.map_cons, List.zipWith_cons_cons, List.sum_cons]
        rw [ih lt]
        simp only [if_pos rfl, countCorrectRow, List.zipWith_cons_cons,
          List.sum_cons]
        have hhead : (if l ≠ ig then (1 : ℤ) else 0) * 1 *
            (if p = l then (1 : ℤ) else 0) =
            (if l ≠ ig ∧ p = l then (1 : ℤ) else 0) := by
          by_cases hl : l = ig
          · simp [hl]
          · by_cases hp : p = l
            · simp [hl, hp]
            · simp [hl, hp]
        rw [hhead]
        rfl

theorem row_valid_eq (ig : ℤ) : ∀ (m : ℤ), m = 0 ∨ m = 1 → ∀ (lrow : List ℤ),
    ((lrow.map (fun l => if l ≠ ig then (1 : ℤ) else 0)).map
      (fun v => v * m)).sum = if m = 1 then countValidRow lrow ig else 0 := by
  rintro m (rfl | rfl)
  · intro lrow
    induction lrow with
    | nil => simp [countValidRow]
    | cons l lt ih =>
      simp only [List.map_cons, List.sum_cons]
      rw [ih]
      simp
  · intro lrow
    induction lrow with
    | nil => simp [countValidRow]
    | cons l lt ih =>
      simp only [List.map_cons, List.sum_cons]
      rw [ih]
      simp [countValidRow]

theorem grid_correct_eq (ig : ℤ) : ∀ (label preds : List (List ℤ))
    (mask : List ℤ), (∀ m ∈ mask, m = 0 ∨ m = 1) →
    mask.length = label.length → preds.length = label.length →
    sumGrid (mulGrid (scaleByMask (validMask label ig) mask)
      (eqIndicator preds label)) = maskedCorrect preds label ig mask := by
  intro label
  induction label with
  | nil =>
    intro preds mask _ hlen hplen
    obtain rfl : mask = [] := List.length_eq_zero.mp (by simpa using hlen)
    obtain rfl : preds = [] := List.length_eq_zero.mp (by simpa using hplen)
    rfl
  | cons lrow lt ih =>
    intro preds mask hm hlen hplen
    cases mask with
    | nil => simp at hlen
    | cons m mt =>
      cases preds with
      | nil => simp at hplen
      | cons prow pt =>
        rw [validMask_cons, scaleByMask_cons, eqIndicator_cons, mulGrid_cons,
          sumGrid_cons, maskedCorrect_cons]
        rw [row_correct_eq ig m (hm m (by simp)) prow lrow]
        rw [ih pt mt (fun x hx => hm x (by simp [hx]))
          (by simpa using hlen) (by simpa using hplen)]

theorem grid_valid_eq (ig : ℤ) : ∀ (label : List (List ℤ)) (mask : List ℤ),
    (∀ m ∈ mask, m = 0 ∨ m = 1) → mask.length = label.length →
    sumGrid (scaleByMask (validMask label ig) mask) =
      maskedValid label ig mask := by
  intro label
  induction label with
  | nil =>
    intro mask _ hlen
    obtain rfl : mask = [] := List.length_eq_zero.mp (by simpa using hlen)
    rfl
  | cons lrow lt ih =>
    intro mask hm hlen
    cases mask with
    | nil => simp at hlen
    | cons m mt =>
      rw [validMask_cons, scaleByMask_cons, sumGrid_cons, maskedValid_cons]
      rw [row_valid_eq ig m (hm m (by simp)) lrow]
      rw [ih mt (fun x hx => hm x (by simp [hx])) (by simpa using hlen)]

/-- C4: the per-sample validity mask is honored by
`get_correct_and_valid_pixels` (and hence by the identical accounting inside
`pixel_acc`): a sample with mask entry 0 contributes zero to both counts, and
the returned pair equals the counts computed over only the mask-1 samples,
restricted to pixels whose label differs from `ignore_index`. -/
theorem get_correct_and_valid_pixels_masked
    (pred : List (List (List ℤ))) (label : List (List ℤ)) (ig : ℤ)
    (mask : List ℤ)
    (hm : ∀ m ∈ mask, m = 0 ∨ m = 1)
    (hlen : mask.length = label.length)
    (hplen : pred.length = label.length) :
    get_correct_and_valid_pixels pred label ig (some mask) =
      (maskedCorrect (argmaxDim1 pred) label ig mask,
       maskedValid label ig mask) := by
  show (sumGrid (mulGrid (scaleByMask (validMask label ig) mask)
      (eqIndicator (argmaxDim1 pred) label)),
    sumGrid (scaleByMask (validMask label ig) mask)) = _
  rw [grid_correct_eq ig label (argmaxDim1 pred) mask hm hlen
    (by simpa [argmaxDim1] using hplen)]
  rw [grid_valid_eq ig label mask hm hlen]

/-- Witness for C4: two samples, only the first one valid; its pixel is
predicted correctly, the second sample is fully ignored. -/
theorem get_correct_and_valid_pixels_masked_witness :
    get_correct_and_valid_pixels [[[3], [5]], [[7], [2]]] [[1], [0]] 0
      (some [1, 0]) = (1, 1) := by
  rw [get_correct_and_valid_pixels_masked _ _ _ _ (by decide) (by decide)
    (by decide)]
  decide

/-! ### Non-negativity of the valid-pixel count (claim C8). -/

theorem validMask_nonneg (label : List (List ℤ)) (ig : ℤ) :
    ∀ row ∈ validMask label ig, ∀ v ∈ row, 0 ≤ v := by
  intro row hrow v hv
  simp only [validMask, List.mem_map] at hrow
  obtain ⟨lrow, _, rfl⟩ := hrow
  simp only [List.mem_map] at hv
  obtain ⟨l, _, rfl⟩ := hv
  split <;> norm_num

theorem scaleByMask_nonneg : ∀ (l : List (List ℤ)) (mask : List ℤ),
    (∀ row ∈ l, ∀ v ∈ row, 0 ≤ v) → (∀ m ∈ mask, 0 ≤ m) →
    ∀ row ∈ scaleByMask l mask, ∀ v ∈ row, 0 ≤ v := by
  intro l
  induction l with
  | nil =>
    intro mask _ _ row hrow
    simp [scaleByMask] at hrow
  | cons r t ih =>
    intro mask hl hm row hrow
    cases mask with
    | nil => simp [scaleByMask] at hrow
    | cons m mt =>
      rw [scaleByMask_cons] at hrow
      rcases List.mem_cons.mp hrow with rfl | hrow2
      · intro v hv
        obtain ⟨x, hx, rfl⟩ := List.mem_map.mp hv
        exact mul_nonneg (hl r (by simp) x hx) (hm m (by simp))
      · exact ih mt (fun rr hrr => hl rr (by simp [hrr]))
          (fun mm hmm => hm mm (by simp [hmm])) row hrow2

theorem sumGrid_nonneg (g : List (List ℤ))
    (h : ∀ row ∈ g, ∀ v ∈ row, 0 ≤ v) : 0 ≤ sumGrid g := by
  unfold sumGrid
  apply List.sum_nonneg
  intro x hx
  obtain ⟨row, hrow, rfl⟩ := List.mem_map.mp hx
  exact List.sum_nonneg (h row hrow)

/-- C8: `pixel_acc` never divides by zero: when the total valid-pixel count
is zero it returns `missing_score` without performing the division, and
otherwise it returns `acc_sum / (pixel_sum + 1e-10)` with `pixel_sum`
strictly positive. -/
theorem pixel_acc_no_div_zero
    (pred : List (List (List ℤ))) (label : List (List ℤ)) (ig : ℤ)
    (mask : Option (List ℤ)) (ms : ℚ)
    (hm : ∀ l, mask = some l → ∀ m ∈ l, m = 0 ∨ m = 1) :
    (pixel_acc pred label ig mask ms = ms ∧
      (get_correct_and_valid_pixels pred label ig mask).2 = 0) ∨
    (0 < (get_correct_and_valid_pixels pred label ig mask).2 ∧
      pixel_acc pred label ig mask ms =
        ((get_correct_and_valid_pixels pred label ig mask).1 : ℚ) /
          (((get_correct_and_valid_pixels pred label ig mask).2 : ℚ) +
            1 / 10 ^ 10)) := by
  have hpa : pixel_acc pred label ig mask ms =
      if (get_correct_and_valid_pixels pred label ig mask).2 = 0 then ms
      else ((get_correct_and_valid_pixels pred label ig mask).1 : ℚ) /
        (((get_correct_and_valid_pixels pred label ig mask).2 : ℚ) +
          1 / 10 ^ 10) := rfl
  have hnn : 0 ≤ (get_correct_and_valid_pixels pred label ig mask).2 := by
    show 0 ≤ sumGrid _
    cases mask with
    | none => exact sumGrid_nonneg _ (validMask_nonneg label ig)
    | some mk =>
      refine sumGrid_nonneg _ (scaleByMask_nonneg _ _ (validMask_nonneg label ig) ?_)
      intro m hmm
      rcases hm mk rfl m hmm with rfl | rfl <;> norm_num
  by_cases h0 : (get_correct_and_valid_pixels pred label ig mask).2 = 0
  · left
    rw [hpa, if_pos h0]
    exact ⟨rfl, h0⟩
  · right
    rw [hpa, if_neg h0]
    exact ⟨lt_of_le_of_ne hnn (Ne.symm h0), rfl⟩

/-- Witness for C8: one valid but wrongly predicted pixel, so the valid count
is positive and the accuracy is 0 via the guarded division. -/
theorem pixel_acc_no_div_zero_witness :
    0 < (get_correct_and_valid_pixels [[[5]]] [[3]] (-1) (some [1])).2 ∧
    pixel_acc [[[5]]] [[3]] (-1) (some [1]) 1 = 0 := by
  rcases pixel_acc_no_div_zero [[[5]]] [[3]] (-1) (some [1]) 1
      (by rintro l hl m hm
          cases hl
          simp at hm
          exact Or.inr hm) with ⟨h1, h2⟩ | ⟨h1, h2⟩
  · exact absurd h2 (by decide)
  · refine ⟨h1, ?_⟩
    rw [h2]
    rw [show (get_correct_and_valid_pixels [[[5]]] [[3]] (-1) (some [1])).1 = 0
      from by decide]
    norm_num

/-- C10: the correct/valid counts computed inside `pixel_acc` are exactly the
pair returned by `get_correct_and_valid_pixels` on the same inputs:
`pixel_acc` equals the guarded combination of that pair, returning
`missing_score` precisely when the valid count is zero. -/
theorem pixel_acc_eq_gcavp (pred : List (List (List ℤ)))
    (label : List (List ℤ)) (ig : ℤ) (mask : Option (List ℤ)) (ms : ℚ) :
    pixel_acc pred label ig mask ms =
      (if (get_correct_and_valid_pixels pred label ig mask).2 = 0 then ms
       else ((get_correct_and_valid_pixels pred label ig mask).1 : ℚ) /
         (((get_correct_and_valid_pixels pred label ig mask).2 : ℚ) +
           1 / 10 ^ 10)) := rfl

/-! ### Masked cross entropy (claim C5). -/

theorem cewvm_num : ∀ (mask : List ℚ) (loss : List (List ℚ)),
    ((List.zipWith (fun m row => row.map (fun v => m * v)) mask loss).map
      (fun row => row.sum)).sum =
    (List.zipWith (fun m row => m * row.sum) mask loss).sum := by
  intro mask
  induction mask with
  | nil => intro loss; rfl
  | cons m mt ih =>
    intro loss
    cases loss with
    | nil => rfl
    | cons row lt =>
      simp only [List.zipWith_cons_cons, List.map_cons, List.sum_cons]
      rw [ih lt]
      congr 1
      induction row with
      | nil => simp
      | cons v vt ihr =>
        simp only [List.map_cons, List.sum_cons, mul_add]
        rw [ihr]

theorem cewvm_den : ∀ (mask : List ℚ) (loss : List (List ℚ)),
    mask.length = loss.length →
    ((List.zipWith (fun m row => row.map (fun v => m * v)) mask loss).map
      (fun row => (row.length : ℚ))).sum =
    (loss.map (fun row => (row.length : ℚ))).sum := by
  intro mask
  induction mask with
  | nil =>
    intro loss hlen
    obtain rfl : loss = [] := List.length_eq_zero.mp (by simpa using hlen.symm)
    rfl
  | cons m mt ih =>
    intro loss hlen
    cases loss with
    | nil => simp at hlen
    | cons row lt =>
      simp only [List.zipWith_cons_cons, List.map_cons, List.sum_cons,
        List.length_map]
      rw [ih lt (by simpa using hlen)]

/-- C5: `CrossEntropyLossWithValidationMask.forward` returns the mean, over
all target elements of all samples, of the per-element loss multiplied by the
sample's mask entry: the sum of `mask_i * (sum of sample i's losses)` divided
by the total element count — so a mask-0 sample contributes zero to the
numerator while its elements still count in the denominator. -/
theorem cewvm_forward_masked_mean
    (loss : List (List ℚ)) (mask : List ℚ) (hlen : mask.length = loss.length) :
    cewvm_forward loss mask =
      (List.zipWith (fun m row => m * row.sum) mask loss).sum /
        ((loss.map (fun row => (row.length : ℚ))).sum) := by
  unfold cewvm_forward tmean
  rw [cewvm_num mask loss, cewvm_den mask loss hlen]

/-- Witness for C5: two two-element samples with mask `[1, 0]`; the masked
sample contributes nothing to the numerator but its two elements keep the
denominator at 4, giving `3/4`. -/
theorem cewvm_forward_masked_mean_witness :
    cewvm_forward [[1, 2], [3, 4]] [1, 0] = 3 / 4 := by
  rw [cewvm_forward_masked_mean _ _ (by decide)]
  norm_num

/-! ### Multi-head training loss (claim C6). -/

/-- C6: in training mode with metric/loss calculations enabled,
`SegmentationModule.forward` requests all four heads (so the decoder fills
all of them), computes the part loss as `part_loss` summed over the
enumerated object classes that have parts, and sets `loss_dict['total']` to
`object*1 + part*0.5 + scene*0.25 + material*1` under the default loss
scale. -/
theorem segmentation_module_forward_train_spec
    {τ : Type} (sceneV objV partV matV : τ)
    (critObject critScene critMaterial : τ → ℚ)
    (partLossF : ℕ → ℕ → ℚ) (owp : List ℕ) :
    upernet_forward ⟨true, true, true, true⟩ sceneV objV partV matV =
      ⟨some objV, some partV, some sceneV, some matV⟩ ∧
    segmentation_module_forward_train
        (fun sw => upernet_forward sw sceneV objV partV matV)
        critObject critScene critMaterial partLossF owp defaultLossScale =
      ⟨some (critObject objV),
       some (owp.enum.foldl (fun acc p => acc + partLossF p.1 p.2) 0),
       some (critScene sceneV),
       some (critMaterial matV),
       some (critObject objV * 1 +
         (owp.enum.foldl (fun acc p => acc + partLossF p.1 p.2) 0) * (1 / 2) +
         critScene sceneV * (1 / 4) + critMaterial matV * 1)⟩ := by
  exact ⟨rfl, rfl⟩

end Models
